import Mathlib

/-!
# Console Tetris: a shallow embedding of `consoleTetris.cpp`

The C++ `int` values (cells, sizes, anchors) are modelled as mathematical integers
(`Int`). The source computes `x - 1`, `x + 1` and `y + 1` in 32-bit `int`, where an
overflow is undefined; the model computes them in `Int`, and the statements about these
operations either keep the piece inside the board or carry the condition `isInt32` that
the computed anchor is representable. A `std::vector<std::vector<int>>` is a
`List (List Int)`.

Vector accesses:
* a read (`grid[newY][newX]`, `shape[i][j]`) is total in the model, with value `0`
  outside the vector; on a rectangular board every read of the code is preceded by
  the bounds test against `width` and `height`, so that value is never used there;
* the write of `Board::clearTetromino` is guarded by the same bounds test and is
  modelled as a write that does nothing outside the vector;
* the write of `Board::addTetromino` is unchecked: the model returns `none` when it
  falls outside the vector (undefined behaviour in C++);
* the loop of `Board::clearFullLines` may run forever (rows of width 0): it is
  modelled with an explicit bound on the number of executions of the loop body and
  returns `none` when the bound is exhausted.
-/

namespace ConsoleTetris

/-! ## Board -/

/-- The class `Board`: `width`, `height` and the `grid` of cells. -/
structure Board where
  width : Int
  height : Int
  grid : List (List Int)
deriving DecidableEq, Repr

/-- The constructor `Board(int w, int h)`: `height` rows of `width` zeros. -/
def Board.create (w h : Int) : Board :=
  { width := w, height := h, grid := List.replicate h.toNat (List.replicate w.toNat 0) }

/-- The grid is rectangular: `height` rows of `width` cells each. -/
def Board.Rect (b : Board) : Prop :=
  (b.grid.length : Int) = b.height ∧ ∀ row ∈ b.grid, (row.length : Int) = b.width

instance (b : Board) : Decidable b.Rect := by
  unfold Board.Rect; infer_instance

/-- Every cell of the grid is `0` (empty) or `1` (filled). -/
def Board.Binary (b : Board) : Prop :=
  ∀ row ∈ b.grid, ∀ c ∈ row, c = 0 ∨ c = 1

instance (b : Board) : Decidable b.Binary := by
  unfold Board.Binary; infer_instance

/-- The data invariant of a board: a rectangular grid of cells that are `0` or `1`. -/
def Board.WellFormed (b : Board) : Prop := b.Rect ∧ b.Binary

instance (b : Board) : Decidable b.WellFormed := by
  unfold Board.WellFormed; infer_instance

/-- The read `v[r][c]` of a vector of vectors at `int` indices (value `0` outside). -/
def cellAt (g : List (List Int)) (r c : Int) : Int :=
  if 0 ≤ r ∧ 0 ≤ c then (g.getD r.toNat []).getD c.toNat 0 else 0

/-- The write `v[r][c] = val` when it is in range, the vector unchanged otherwise. -/
def setCell (g : List (List Int)) (r c : Int) (val : Int) : List (List Int) :=
  if 0 ≤ r ∧ 0 ≤ c then g.set r.toNat ((g.getD r.toNat []).set c.toNat val) else g

/-- The index pair `(r, c)` is in range for the vector of vectors `g`. -/
def inRange (g : List (List Int)) (r c : Int) : Prop :=
  0 ≤ r ∧ r < g.length ∧ 0 ≤ c ∧ c < (g.getD r.toNat []).length

instance (g : List (List Int)) (r c : Int) : Decidable (inRange g r c) := by
  unfold inRange; infer_instance

/-- The unchecked write `v[r][c] = val`: `none` when the index is out of range. -/
def setCellChecked (g : List (List Int)) (r c : Int) (val : Int) : Option (List (List Int)) :=
  if inRange g r c then some (setCell g r c val) else none

/-- The cell `(i, j)` of a shape is filled: `tetromino[i][j] == 1`. -/
def shapeFilled (s : List (List Int)) (i j : Nat) : Prop :=
  (s.getD i []).getD j 0 = 1

instance (s : List (List Int)) (i j : Nat) : Decidable (shapeFilled s i j) := by
  unfold shapeFilled; infer_instance

/-- A property of all filled cells of a shape is decided on the cells of the matrix: outside
of it no cell is filled. -/
instance shapeForallDecidable (s : List (List Int)) (P : Nat → Nat → Prop)
    [∀ i j, Decidable (P i j)] : Decidable (∀ i j : Nat, shapeFilled s i j → P i j) :=
  decidable_of_iff
    (∀ i, i < s.length → ∀ j, j < (s.getD i []).length → shapeFilled s i j → P i j)
    (by
      constructor
      · intro h i j hf
        have hj : j < (s.getD i []).length := by
          by_contra hj
          unfold shapeFilled at hf
          rw [List.getD_eq_default _ _ (by omega)] at hf
          exact absurd hf (by decide)
        have hi : i < s.length := by
          by_contra hi
          rw [List.getD_eq_default _ _ (by omega)] at hj
          exact absurd hj (by simp)
        exact h i hi j hj hf
      · intro h i _ j _ hf
        exact h i j hf)

/-- Method `Board::canPlaceTetromino`, inner loop: the cells `tetromino[i][j], tetromino[i][j+1], ...`
of row `i`, given as the list `cells`. -/
def canPlaceCells (b : Board) (x y : Int) (i : Nat) : List Int → Nat → Bool
  | [], _ => true
  | cell :: cells, j =>
    if cell = 1 then
      let newX := x + (j : Int)
      let newY := y + (i : Int)
      if newX < 0 ∨ newX ≥ b.width ∨ newY < 0 ∨ newY ≥ b.height ∨ cellAt b.grid newY newX = 1 then
        false
      else canPlaceCells b x y i cells (j + 1)
    else canPlaceCells b x y i cells (j + 1)

/-- Method `Board::canPlaceTetromino`, outer loop: the rows `tetromino[i], tetromino[i+1], ...`. -/
def canPlaceRows (b : Board) (x y : Int) : List (List Int) → Nat → Bool
  | [], _ => true
  | row :: rows, i =>
    if canPlaceCells b x y i row 0 then canPlaceRows b x y rows (i + 1) else false

/-- Method `Board::canPlaceTetromino(tetromino, x, y)`. -/
def Board.canPlaceTetromino (b : Board) (tetromino : List (List Int)) (x y : Int) : Bool :=
  canPlaceRows b x y tetromino 0

/-- Method `Board::addTetromino`, inner loop over the cells of row `i` from column `j` on. -/
def addCells (x y : Int) (i : Nat) : List Int → Nat → List (List Int) → Option (List (List Int))
  | [], _, g => some g
  | cell :: cells, j, g =>
    if cell = 1 then
      let newX := x + (j : Int)
      let newY := y + (i : Int)
      match setCellChecked g newY newX 1 with
      | none => none
      | some g1 => addCells x y i cells (j + 1) g1
    else addCells x y i cells (j + 1) g

/-- Method `Board::addTetromino`, outer loop over the rows from row `i` on. -/
def addRows (x y : Int) : List (List Int) → Nat → List (List Int) → Option (List (List Int))
  | [], _, g => some g
  | row :: rows, i, g =>
    match addCells x y i row 0 g with
    | none => none
    | some g1 => addRows x y rows (i + 1) g1

/-- Method `Board::addTetromino(tetromino, x, y)`: `none` when a write leaves the grid. -/
def Board.addTetromino (b : Board) (tetromino : List (List Int)) (x y : Int) : Option Board :=
  match addRows x y tetromino 0 b.grid with
  | none => none
  | some g => some { b with grid := g }

/-- Method `Board::clearTetromino`, inner loop over the cells of row `i` from column `j` on. -/
def clearCells (width height : Int) (x y : Int) (i : Nat) :
    List Int → Nat → List (List Int) → List (List Int)
  | [], _, g => g
  | cell :: cells, j, g =>
    if cell = 1 then
      let newX := x + (j : Int)
      let newY := y + (i : Int)
      if newX ≥ 0 ∧ newX < width ∧ newY ≥ 0 ∧ newY < height then
        clearCells width height x y i cells (j + 1) (setCell g newY newX 0)
      else clearCells width height x y i cells (j + 1) g
    else clearCells width height x y i cells (j + 1) g

/-- Method `Board::clearTetromino`, outer loop over the rows from row `i` on. -/
def clearRows (width height : Int) (x y : Int) :
    List (List Int) → Nat → List (List Int) → List (List Int)
  | [], _, g => g
  | row :: rows, i, g =>
    clearRows width height x y rows (i + 1) (clearCells width height x y i row 0 g)

/-- Method `Board::clearTetromino(tetromino, x, y)`. -/
def Board.clearTetromino (b : Board) (tetromino : List (List Int)) (x y : Int) : Board :=
  { b with grid := clearRows b.width b.height x y tetromino 0 b.grid }

/-- The test of `std::all_of(..., cell == 1)` on one row: the row is completely filled. -/
def rowFull (row : List Int) : Bool := row.all (fun cell => cell == 1)

/-- Method `Board::clearFullLines`, the loop from index `i` downwards; `fuel` bounds the number of
executions of the loop body. -/
def clearFullLinesLoop (width : Int) : Nat → List (List Int) → Int → Option (List (List Int))
  | fuel, g, i =>
    if i ≥ 0 then
      match fuel with
      | 0 => none
      | fuel + 1 =>
        match g[i.toNat]? with
        | none => none
        | some row =>
          if rowFull row then
            let g1 := g.eraseIdx i.toNat
            let g2 := List.replicate width.toNat (0 : Int) :: g1
            clearFullLinesLoop width fuel g2 (i + 1 - 1)
          else clearFullLinesLoop width fuel g (i - 1)
    else some g

/-- Method `Board::clearFullLines()`, with at most `fuel` executions of the loop body. -/
def Board.clearFullLines (fuel : Nat) (b : Board) : Option Board :=
  match clearFullLinesLoop b.width fuel b.grid (b.height - 1) with
  | none => none
  | some g => some { b with grid := g }

/-- Method `Board::dropTetromino(tetromino, x, y)`: the returned flag with the new values of the
reference parameters `x`, `y` and the board; `none` when a write of `addTetromino` leaves
the grid. -/
def Board.dropTetromino (b : Board) (tetromino : List (List Int)) (x y : Int) :
    Option (Bool × Int × Int × Board) :=
  let b0 := b.clearTetromino tetromino x y
  if b0.canPlaceTetromino tetromino x (y + 1) then
    match b0.addTetromino tetromino x (y + 1) with
    | none => none
    | some b1 => some (true, x, y + 1, b1)
  else
    match b0.addTetromino tetromino x y with
    | none => none
    | some b1 => some (false, x, y, b1)

/-! ## Tetromino -/

/-- The member `Tetromino::shapes` as filled by the constructor `Tetromino()`. -/
def Tetromino.shapes : List (List (List Int)) :=
  [ [[1, 1, 1, 1], [0, 0, 0, 0], [0, 0, 0, 0], [0, 0, 0, 0]],   -- Line
    [[0, 1, 1, 0], [0, 1, 1, 0], [0, 0, 0, 0], [0, 0, 0, 0]],   -- Square
    [[1, 0, 0, 0], [1, 0, 0, 0], [1, 1, 0, 0], [0, 0, 0, 0]],   -- L-shape
    [[0, 1, 0, 0], [0, 1, 0, 0], [1, 1, 0, 0], [0, 0, 0, 0]],   -- Reverse L
    [[0, 0, 1, 1], [0, 1, 1, 0], [0, 0, 0, 0], [0, 0, 0, 0]],   -- S-shape
    [[1, 1, 0, 0], [0, 1, 1, 0], [0, 0, 0, 0], [0, 0, 0, 0]],   -- Z-shape
    [[1, 1, 1, 0], [0, 1, 0, 0], [0, 0, 0, 0], [0, 0, 0, 0]] ]  -- T-shape

/-- Method `Tetromino::getShape(index)`: `shapes[index]`, `none` when the index is out of range. -/
def Tetromino.getShape (index : Int) : Option (List (List Int)) :=
  if 0 ≤ index then Tetromino.shapes[index.toNat]? else none

/-- The local `rotated` of `Tetromino::rotateRight` after its two loops: starting from a
4x4 matrix of zeros, `rotated[j][4 - i - 1] = shape[i][j]` for `i, j` in `0..3`. -/
def rotatedRight (shape : List (List Int)) : List (List Int) :=
  (List.range 4).foldl
    (fun rotated i =>
      (List.range 4).foldl
        (fun rotated j => setCell rotated (j : Int) (4 - (i : Int) - 1) (cellAt shape i j))
        rotated)
    (List.replicate 4 (List.replicate 4 0))

/-- The local `rotated` of `Tetromino::rotateLeft` after its two loops: starting from a
4x4 matrix of zeros, `rotated[4 - j - 1][i] = shape[i][j]` for `i, j` in `0..3`. -/
def rotatedLeft (shape : List (List Int)) : List (List Int) :=
  (List.range 4).foldl
    (fun rotated i =>
      (List.range 4).foldl
        (fun rotated j => setCell rotated (4 - (j : Int) - 1) (i : Int) (cellAt shape i j))
        rotated)
    (List.replicate 4 (List.replicate 4 0))

/-- Method `Tetromino::rotateRight(shape, board, x, y)`: the new value of the reference `shape`. -/
def Tetromino.rotateRight (shape : List (List Int)) (board : Board) (x y : Int) :
    List (List Int) :=
  let rotated := rotatedRight shape
  if board.canPlaceTetromino rotated x y then rotated else shape

/-- Method `Tetromino::rotateLeft(shape, board, x, y)`: the new value of the reference `shape`. -/
def Tetromino.rotateLeft (shape : List (List Int)) (board : Board) (x y : Int) :
    List (List Int) :=
  let rotated := rotatedLeft shape
  if board.canPlaceTetromino rotated x y then rotated else shape

/-- Method `Tetromino::shiftLeft(shape, x, y, board)`: the new value of the reference `x`. -/
def Tetromino.shiftLeft (shape : List (List Int)) (x y : Int) (board : Board) : Int :=
  if board.canPlaceTetromino shape (x - 1) y then x - 1 else x

/-- Method `Tetromino::shiftRight(shape, x, y, board)`: the new value of the reference `x`. -/
def Tetromino.shiftRight (shape : List (List Int)) (x y : Int) (board : Board) : Int :=
  if board.canPlaceTetromino shape (x + 1) y then x + 1 else x

/-! ## The loops of `main` -/

/-- The four key states sampled in one tick: `GetAsyncKeyState(68)` (`D`),
`GetAsyncKeyState(65)` (`A`), `GetAsyncKeyState(37)` (left arrow) and
`GetAsyncKeyState(39)` (right arrow), each as "non-zero". -/
structure Keys where
  d : Bool
  a : Bool
  left : Bool
  right : Bool
deriving DecidableEq, Repr

/-- No key is pressed. -/
def Keys.none : Keys := { d := false, a := false, left := false, right := false }

/-- The variables of `main` that the inner loop works on: `board`, `shape`, `x`, `y`. -/
structure Game where
  board : Board
  shape : List (List Int)
  x : Int
  y : Int
deriving DecidableEq, Repr

/-- The statement `if (GetAsyncKeyState(68)) tetromino.rotateRight(shape, board, x, y);`. -/
def Game.keyRotateRight (pressed : Bool) (g : Game) : Game :=
  if pressed then { g with shape := Tetromino.rotateRight g.shape g.board g.x g.y } else g

/-- The statement `if (GetAsyncKeyState(65)) tetromino.rotateLeft(shape, board, x, y);`. -/
def Game.keyRotateLeft (pressed : Bool) (g : Game) : Game :=
  if pressed then { g with shape := Tetromino.rotateLeft g.shape g.board g.x g.y } else g

/-- The statement `if (GetAsyncKeyState(37)) tetromino.shiftLeft(shape, x, y, board);`. -/
def Game.keyShiftLeft (pressed : Bool) (g : Game) : Game :=
  if pressed then { g with x := Tetromino.shiftLeft g.shape g.x g.y g.board } else g

/-- The statement `if (GetAsyncKeyState(39)) tetromino.shiftRight(shape, x, y, board);`. -/
def Game.keyShiftRight (pressed : Bool) (g : Game) : Game :=
  if pressed then { g with x := Tetromino.shiftRight g.shape g.x g.y g.board } else g

/-- The first part of the body of the inner loop of `main`: `board.clearTetromino`, then
the four key tests in the order `D`, `A`, left, right. -/
def Game.inputPhase (keys : Keys) (g : Game) : Game :=
  let g0 := { g with board := g.board.clearTetromino g.shape g.x g.y }
  let g1 := g0.keyRotateRight keys.d
  let g2 := g1.keyRotateLeft keys.a
  let g3 := g2.keyShiftLeft keys.left
  g3.keyShiftRight keys.right

/-- One execution of the body of the inner loop of `main` (a tick). The flag is the value
returned by `dropTetromino`: `true` when the loop goes on (after `clearFullLines`), `false`
when the `else` branch runs and the loop is left by `break`. -/
def tick (fuel : Nat) (keys : Keys) (g : Game) : Option (Bool × Game) :=
  let g1 := g.inputPhase keys
  match g1.board.dropTetromino g1.shape g1.x g1.y with
  | none => none
  | some (true, x, y, board) =>
    match board.clearFullLines fuel with
    | none => none
    | some board1 => some (true, { g1 with board := board1, x := x, y := y })
  | some (false, x, y, board) => some (false, { g1 with board := board, x := x, y := y })

/-- The inner `while (true)` of `main` on the key states of the successive ticks: it stops
at the first tick that takes the `break` (flag `false`), or when the list of key states is
used up with the piece still falling (flag `true`). -/
def runTicks (fuel : Nat) : List Keys → Game → Option (Bool × Game)
  | [], g => some (true, g)
  | keys :: rest, g =>
    match tick fuel keys g with
    | none => none
    | some (true, g1) => runTicks fuel rest g1
    | some (false, g1) => some (false, g1)

/-- The start of an iteration of the outer loop of `main`: `x = 3`, `y = 0`, the chosen
shape, and the test `board.canPlaceTetromino(shape, x, y)`; `none` when the test fails
(the outer `break`). -/
def spawn (board : Board) (shape : List (List Int)) : Option Game :=
  if board.canPlaceTetromino shape 3 0 then
    some { board := board, shape := shape, x := 3, y := 0 }
  else none

/-- The number of ticks that the inner loop of `main` executes on the key states `keys`:
it stops after the first tick that does not report a falling piece. -/
def ticksUsed (fuel : Nat) : List Keys → Game → Nat
  | [], _ => 0
  | keys :: rest, g =>
    match tick fuel keys g with
    | some (true, g1) => 1 + ticksUsed fuel rest g1
    | _ => 1

/-- The outcome of a run of the outer loop of `main`: whether the loop was left by the
`break` of the spawn test, the number of ticks executed, and the board. -/
structure SessionEnd where
  over : Bool
  ticks : Nat
  board : Board
deriving DecidableEq, Repr

/-- The outer `while (true)` of `main`. Each element of the list gives, for one piece, the
index drawn by `dist(gen)` and the key states of its ticks. The run ends at the spawn test
that fails (`over = true`), or when the scripted pieces or key states are used up
(`over = false`). -/
def session (fuel : Nat) : List (Int × List Keys) → Board → Option SessionEnd
  | [], board => some { over := false, ticks := 0, board := board }
  | (index, keys) :: rest, board =>
    match Tetromino.getShape index with
    | none => none
    | some shape =>
      match spawn board shape with
      | none => some { over := true, ticks := 0, board := board }
      | some g =>
        match runTicks fuel keys g with
        | none => none
        | some (true, g1) => some { over := false, ticks := keys.length, board := g1.board }
        | some (false, g1) =>
          match session fuel rest g1.board with
          | none => none
          | some e => some { e with ticks := ticksUsed fuel keys g + e.ticks }

/-- The states of `main` at the head of the inner loop that the game can reach from the
empty 10x20 board: by the spawn of a catalog shape on the empty board, by a tick in which
the piece keeps falling, and by a tick in which the piece locks followed by the spawn of a
catalog shape. -/
inductive Reachable : Game → Prop
  | first (shape : List (List Int)) (g : Game) (hs : shape ∈ Tetromino.shapes)
      (hg : spawn (Board.create 10 20) shape = some g) : Reachable g
  | fall (fuel : Nat) (keys : Keys) (g g1 : Game) (hr : Reachable g)
      (ht : tick fuel keys g = some (true, g1)) : Reachable g1
  | next (fuel : Nat) (keys : Keys) (g g1 g2 : Game) (shape : List (List Int))
      (hr : Reachable g) (ht : tick fuel keys g = some (false, g1))
      (hs : shape ∈ Tetromino.shapes) (hg : spawn g1.board shape = some g2) : Reachable g2

/-- The states of the input phase of a tick: after `clearTetromino`, and after each of the
four key tests. -/
def Game.inputStates (keys : Keys) (g : Game) : Game × Game × Game × Game × Game :=
  let g0 := { g with board := g.board.clearTetromino g.shape g.x g.y }
  let g1 := g0.keyRotateRight keys.d
  let g2 := g1.keyRotateLeft keys.a
  let g3 := g2.keyShiftLeft keys.left
  (g0, g1, g2, g3, g3.keyShiftRight keys.right)

/-- In the input phase of a tick, `rotateRight` is called and commits its candidate. -/
def Game.commitsRotateRight (keys : Keys) (g : Game) : Bool :=
  let g0 := (g.inputStates keys).1
  keys.d && g0.board.canPlaceTetromino (rotatedRight g0.shape) g0.x g0.y

/-- In the input phase of a tick, `rotateLeft` is called and commits its candidate. -/
def Game.commitsRotateLeft (keys : Keys) (g : Game) : Bool :=
  let g1 := (g.inputStates keys).2.1
  keys.a && g1.board.canPlaceTetromino (rotatedLeft g1.shape) g1.x g1.y

/-- In the input phase of a tick, `shiftLeft` is called and commits its candidate. -/
def Game.commitsShiftLeft (keys : Keys) (g : Game) : Bool :=
  let g2 := (g.inputStates keys).2.2.1
  keys.left && g2.board.canPlaceTetromino g2.shape (g2.x - 1) g2.y

/-- In the input phase of a tick, `shiftRight` is called and commits its candidate. -/
def Game.commitsShiftRight (keys : Keys) (g : Game) : Bool :=
  let g3 := (g.inputStates keys).2.2.2.1
  keys.right && g3.board.canPlaceTetromino g3.shape (g3.x + 1) g3.y

/-! ## Positions used as concrete inputs -/

/-- The line piece, `shapes[0]`. -/
def lineShape : List (List Int) := [[1, 1, 1, 1], [0, 0, 0, 0], [0, 0, 0, 0], [0, 0, 0, 0]]

/-- The line piece after one right rotation: the four cells of column 3. -/
def lineShapeUpright : List (List Int) :=
  [[0, 0, 0, 1], [0, 0, 0, 1], [0, 0, 0, 1], [0, 0, 0, 1]]

/-- The T piece, `shapes[6]`. -/
def teeShape : List (List Int) := [[1, 1, 1, 0], [0, 1, 0, 0], [0, 0, 0, 0], [0, 0, 0, 0]]

/-- A row of ten empty cells. -/
def emptyRow : List Int := List.replicate 10 0

/-- A 10x20 board with a one-cell-wide well in column 6 over rows 16 to 19: row 16 misses
the columns 3 to 6, the rows 17 to 19 miss the columns 0 and 6. -/
def wellBoard : Board :=
  { width := 10, height := 20,
    grid := List.replicate 16 emptyRow ++
      [[1, 1, 1, 0, 0, 0, 0, 1, 1, 1],
       [0, 1, 1, 1, 1, 1, 0, 1, 1, 1],
       [0, 1, 1, 1, 1, 1, 0, 1, 1, 1],
       [0, 1, 1, 1, 1, 1, 0, 1, 1, 1]] }

/-- The board `wellBoard` with the upright line piece standing in the well (anchor
`(3, 16)`, cells of column 6 in rows 16 to 19). -/
def wellBoardUpright : Board :=
  { width := 10, height := 20,
    grid := List.replicate 16 emptyRow ++
      [[1, 1, 1, 0, 0, 0, 1, 1, 1, 1],
       [0, 1, 1, 1, 1, 1, 1, 1, 1, 1],
       [0, 1, 1, 1, 1, 1, 1, 1, 1, 1],
       [0, 1, 1, 1, 1, 1, 1, 1, 1, 1]] }

/-- The board `wellBoard` with the line piece lying in row 16 (anchor `(3, 16)`): row 16 is
completely filled. -/
def wellBoardLocked : Board :=
  { width := 10, height := 20,
    grid := List.replicate 16 emptyRow ++
      [[1, 1, 1, 1, 1, 1, 1, 1, 1, 1],
       [0, 1, 1, 1, 1, 1, 0, 1, 1, 1],
       [0, 1, 1, 1, 1, 1, 0, 1, 1, 1],
       [0, 1, 1, 1, 1, 1, 0, 1, 1, 1]] }

/-- The key states of the 17 ticks that bring the line piece from its spawn on
`wellBoard` to its lock in row 16: `D` in the first tick, nothing in the next 15 ticks,
`A` in the last one. -/
def wellKeys : List Keys :=
  { d := true, a := false, left := false, right := false } :: List.replicate 15 Keys.none ++
    [{ d := false, a := true, left := false, right := false }]

/-- A 10x20 board of locked cells whose row 19 is completely filled except for the cell of
column 4. -/
def gapBoard : Board :=
  { width := 10, height := 20,
    grid := List.replicate 19 emptyRow ++ [[1, 1, 1, 1, 0, 1, 1, 1, 1, 1]] }

/-- The 10x20 board that holds the line piece alone, lying in row `n` at anchor `(3, n)`. -/
def lineBoardAt (n : Nat) : Board :=
  { width := 10, height := 20,
    grid := List.replicate n emptyRow ++
      [0, 0, 0, 1, 1, 1, 1, 0, 0, 0] :: List.replicate (19 - n) emptyRow }

/-! ## Notions used in the statements -/

/-- The value is representable in the 32-bit `int` of the source. -/
def isInt32 (n : Int) : Prop := -2147483648 ≤ n ∧ n ≤ 2147483647

instance (n : Int) : Decidable (isInt32 n) := by
  unfold isInt32; infer_instance

/-- The element `grid[r][c]` of the board, `none` when the index is outside the vector. -/
def Board.cell? (b : Board) (r c : Int) : Option Int :=
  if 0 ≤ r ∧ 0 ≤ c then
    match b.grid[r.toNat]? with
    | none => none
    | some row => row[c.toNat]?
  else none

/-- The board cell `(r, c)` can receive a piece cell: inside the board and not filled. -/
def Board.free (b : Board) (r c : Int) : Prop :=
  0 ≤ c ∧ c < b.width ∧ 0 ≤ r ∧ r < b.height ∧ cellAt b.grid r c ≠ 1

/-- Some cell `k` of `cells` is filled and lands in board column `c` (the row starts at
shape column `j`). -/
def cellsCover (cells : List Int) (x : Int) (j : Nat) (c : Int) : Prop :=
  ∃ k : Nat, cells.getD k 0 = 1 ∧ c = x + ((j + k : Nat) : Int)

/-- Some filled cell of `rows` lands on the board cell `(r, c)` (the rows start at shape
row `i`). -/
def rowsCover (rows : List (List Int)) (x y : Int) (i : Nat) (r c : Int) : Prop :=
  ∃ k : Nat, r = y + ((i + k : Nat) : Int) ∧ cellsCover (rows.getD k []) x 0 c

/-- The footprint of the shape `s` anchored at `(x, y)` contains the board cell `(r, c)`. -/
def covers (s : List (List Int)) (x y : Int) (r c : Int) : Prop :=
  ∃ i j : Nat, shapeFilled s i j ∧ r = y + (i : Int) ∧ c = x + (j : Int)

/-- All filled cells of the shape `s` anchored at `(x, y)` map inside the board. -/
def Board.inside (b : Board) (s : List (List Int)) (x y : Int) : Prop :=
  ∀ i j : Nat, shapeFilled s i j →
    0 ≤ x + (j : Int) ∧ x + (j : Int) < b.width ∧ 0 ≤ y + (i : Int) ∧ y + (i : Int) < b.height

instance (b : Board) (s : List (List Int)) (x y : Int) : Decidable (b.inside s x y) := by
  unfold Board.inside; infer_instance

/-- All filled cells of the shape `s` anchored at `(x, y)` map onto grid cells that exist
and hold `0`. -/
def Board.emptyUnder (b : Board) (s : List (List Int)) (x y : Int) : Prop :=
  ∀ i j : Nat, shapeFilled s i j → b.cell? (y + (i : Int)) (x + (j : Int)) = some 0

instance (b : Board) (s : List (List Int)) (x y : Int) : Decidable (b.emptyUnder s x y) := by
  unfold Board.emptyUnder; infer_instance

/-- The shape is a 4x4 matrix. -/
def Is4x4 (s : List (List Int)) : Prop :=
  s.length = 4 ∧ ∀ row ∈ s, row.length = 4

instance (s : List (List Int)) : Decidable (Is4x4 s) := by
  unfold Is4x4; infer_instance

/-- The number of completely filled rows of a grid. -/
def fullCount (g : List (List Int)) : Nat := g.countP rowFull

/-- The number of filled cells (`== 1`) of a shape. -/
def filledCount (s : List (List Int)) : Nat :=
  (s.map (fun row => row.countP (fun cell => cell == 1))).sum

/-- Every entry of the shape is `0` or `1`. -/
def shapeBinary (s : List (List Int)) : Prop :=
  ∀ row ∈ s, ∀ cell ∈ row, cell = 0 ∨ cell = 1

instance (s : List (List Int)) : Decidable (shapeBinary s) := by
  unfold shapeBinary; infer_instance

/-- A piece shape: a 4x4 matrix with at least one filled cell. -/
def pieceShape (s : List (List Int)) : Prop :=
  Is4x4 s ∧ ∃ i j : Nat, shapeFilled s i j

/-! ## Reads and writes of cells -/


theorem getD_map_length (g : List (List Int)) (k : Nat) :
    (g.map List.length).getD k 0 = (g.getD k []).length := by
  simp only [List.getD_eq_getElem?_getD, List.getElem?_map]
  cases g[k]? <;> simp

theorem inRange_congr {g g1 : List (List Int)} (h : g1.map List.length = g.map List.length)
    (r c : Int) : inRange g1 r c ↔ inRange g r c := by
  have hl : g1.length = g.length := by simpa using congrArg List.length h
  have hr : (g1.getD r.toNat []).length = (g.getD r.toNat []).length := by
    rw [← getD_map_length, ← getD_map_length, h]
  unfold inRange
  rw [hl, hr]

theorem setCell_lens (g : List (List Int)) (r c val : Int) :
    (setCell g r c val).map List.length = g.map List.length := by
  unfold setCell
  split
  · apply List.ext_getElem?
    intro n
    simp only [List.getElem?_map, List.getElem?_set, List.getD_eq_getElem?_getD]
    by_cases h : r.toNat = n
    · subst h
      by_cases h2 : r.toNat < g.length
      · simp [h2]
      · rw [if_neg h2, List.getElem?_eq_none (by omega)]
        simp
    · simp [h]
  · rfl

theorem cellAt_setCell_self (g : List (List Int)) (r c val : Int) (h : inRange g r c) :
    cellAt (setCell g r c val) r c = val := by
  obtain ⟨h1, h2, h3, h4⟩ := h
  have h2' : r.toNat < g.length := by omega
  have h4' : c.toNat < (g.getD r.toNat []).length := by omega
  unfold cellAt setCell
  rw [if_pos ⟨h1, h3⟩, if_pos ⟨h1, h3⟩]
  simp only [List.getD_eq_getElem?_getD] at h4' ⊢
  rw [List.getElem?_set_self h2', Option.getD_some, List.getElem?_set_self h4', Option.getD_some]

theorem cellAt_setCell_other (g : List (List Int)) (r c val r1 c1 : Int)
    (h : ¬ (r1 = r ∧ c1 = c)) :
    cellAt (setCell g r c val) r1 c1 = cellAt g r1 c1 := by
  unfold cellAt setCell
  by_cases h1 : 0 ≤ r1 ∧ 0 ≤ c1
  · rw [if_pos h1, if_pos h1]
    by_cases h2 : 0 ≤ r ∧ 0 ≤ c
    · rw [if_pos h2]
      simp only [List.getD_eq_getElem?_getD]
      by_cases hr : r.toNat = r1.toNat
      · have hc : c.toNat ≠ c1.toNat := by
          intro hc; apply h; constructor <;> omega
        rw [hr]
        by_cases hlen : r1.toNat < g.length
        · rw [List.getElem?_set_self hlen, Option.getD_some, List.getElem?_set_ne hc]
        · rw [List.set_eq_of_length_le (by omega)]
      · rw [List.getElem?_set_ne hr]
    · rw [if_neg h2]
  · rw [if_neg h1, if_neg h1]

theorem grid_ext {g g1 : List (List Int)} (hl : g1.map List.length = g.map List.length)
    (hc : ∀ r c : Int, inRange g r c → cellAt g1 r c = cellAt g r c) : g1 = g := by
  have hlen : g1.length = g.length := by simpa using congrArg List.length hl
  apply List.ext_getElem hlen
  intro n h1 h2
  have hrow : (g1[n]).length = (g[n]).length := by
    have := getD_map_length g1 n
    rw [hl, getD_map_length] at this
    simp only [List.getD_eq_getElem?_getD, List.getElem?_eq_getElem h1,
      List.getElem?_eq_getElem h2, Option.getD_some] at this
    exact this.symm
  apply List.ext_getElem hrow
  intro m h3 h4
  have hin : inRange g (n : Int) (m : Int) := by
    refine ⟨by omega, by omega, by omega, ?_⟩
    simp only [Int.toNat_ofNat, List.getD_eq_getElem?_getD, List.getElem?_eq_getElem h2,
      Option.getD_some]
    omega
  have := hc n m hin
  unfold cellAt at this
  simp only [Int.toNat_ofNat] at this
  rw [if_pos ⟨by omega, by omega⟩, if_pos ⟨by omega, by omega⟩] at this
  simp only [List.getD_eq_getElem?_getD, List.getElem?_eq_getElem h1,
      List.getElem?_eq_getElem h2, Option.getD_some, List.getElem?_eq_getElem h3,
      List.getElem?_eq_getElem h4] at this
  exact this

theorem cellAt_of_not_inRange (g : List (List Int)) (r c : Int) (h : ¬ inRange g r c) :
    cellAt g r c = 0 := by
  unfold cellAt
  split
  · rename_i h1
    by_cases h2 : r.toNat < g.length
    · have e : g.getD r.toNat [] = g[r.toNat] := List.getD_eq_getElem _ _ h2
      unfold inRange at h
      rw [e] at h ⊢
      exact List.getD_eq_default _ _ (by omega)
    · rw [List.getD_eq_default g [] (by omega)]
      rfl
  · rfl

theorem cellsCover_nil (x : Int) (j : Nat) (c : Int) : ¬ cellsCover [] x j c := by
  rintro ⟨k, hk, -⟩
  simp at hk

theorem cellsCover_cons (cell : Int) (cells : List Int) (x : Int) (j : Nat) (c : Int) :
    cellsCover (cell :: cells) x j c ↔
      (cell = 1 ∧ c = x + (j : Int)) ∨ cellsCover cells x (j + 1) c := by
  constructor
  · rintro ⟨k, hk, hc⟩
    cases k with
    | zero => left; exact ⟨by simpa using hk, by simpa using hc⟩
    | succ k =>
      right
      exact ⟨k, by simpa using hk, by rw [hc]; congr 2; omega⟩
  · rintro (⟨h1, h2⟩ | ⟨k, hk, hc⟩)
    · exact ⟨0, by simpa using h1, by simpa using h2⟩
    · exact ⟨k + 1, by simpa using hk, by rw [hc]; congr 2; omega⟩

theorem rowsCover_nil (x y : Int) (i : Nat) (r c : Int) : ¬ rowsCover [] x y i r c := by
  rintro ⟨k, -, hk⟩
  simp at hk
  exact cellsCover_nil _ _ _ hk

theorem rowsCover_cons (row : List Int) (rows : List (List Int)) (x y : Int) (i : Nat)
    (r c : Int) :
    rowsCover (row :: rows) x y i r c ↔
      (r = y + (i : Int) ∧ cellsCover row x 0 c) ∨ rowsCover rows x y (i + 1) r c := by
  constructor
  · rintro ⟨k, hr, hk⟩
    cases k with
    | zero => left; exact ⟨by simpa using hr, by simpa using hk⟩
    | succ k =>
      right
      exact ⟨k, by rw [hr]; congr 2; omega, by simpa using hk⟩
  · rintro (⟨h1, h2⟩ | ⟨k, hr, hk⟩)
    · exact ⟨0, by simpa using h1, by simpa using h2⟩
    · exact ⟨k + 1, by rw [hr]; congr 2; omega, by simpa using hk⟩

theorem covers_iff_rowsCover (s : List (List Int)) (x y r c : Int) :
    covers s x y r c ↔ rowsCover s x y 0 r c := by
  unfold covers rowsCover cellsCover shapeFilled
  constructor
  · rintro ⟨i, j, h, hr, hc⟩
    exact ⟨i, by simpa using hr, j, h, by simpa using hc⟩
  · rintro ⟨i, hr, j, h, hc⟩
    exact ⟨i, j, h, by simpa using hr, by simpa using hc⟩

theorem addCells_spec (x y : Int) (i : Nat) (cells : List Int) (j : Nat) (g : List (List Int))
    (hin : ∀ c, cellsCover cells x j c → inRange g (y + (i : Int)) c) :
    ∃ g1, addCells x y i cells j g = some g1 ∧ g1.map List.length = g.map List.length ∧
      (∀ r c, r = y + (i : Int) → cellsCover cells x j c → cellAt g1 r c = 1) ∧
      (∀ r c, ¬ (r = y + (i : Int) ∧ cellsCover cells x j c) → cellAt g1 r c = cellAt g r c) := by
  induction cells generalizing j g with
  | nil =>
    exact ⟨g, rfl, rfl, fun r c _ h => absurd h (cellsCover_nil _ _ _), fun _ _ _ => rfl⟩
  | cons cell cells ih =>
    unfold addCells
    by_cases hc : cell = 1
    · subst hc
      have hc : (1 : Int) = 1 := rfl
      have h0 : inRange g (y + (i : Int)) (x + (j : Int)) :=
        hin _ ((cellsCover_cons _ _ _ _ _).2 (Or.inl ⟨hc, rfl⟩))
      simp only [if_true, setCellChecked, if_pos h0]
      obtain ⟨g1, e1, l1, p1, q1⟩ := ih (j + 1) (setCell g (y + (i : Int)) (x + (j : Int)) 1)
        (fun c hcov => (inRange_congr (setCell_lens _ _ _ _) _ _).2
          (hin c ((cellsCover_cons _ _ _ _ _).2 (Or.inr hcov))))
      refine ⟨g1, e1, l1.trans (setCell_lens _ _ _ _), ?_, ?_⟩
      · intro r c hr hcov
        by_cases ht : cellsCover cells x (j + 1) c
        · exact p1 r c hr ht
        · rw [q1 r c (fun h => ht h.2)]
          rcases (cellsCover_cons _ _ _ _ _).1 hcov with ⟨-, h2⟩ | h2
          · rw [hr, h2]; exact cellAt_setCell_self _ _ _ _ h0
          · exact absurd h2 ht
      · intro r c hn
        have hn1 : ¬ (r = y + (i : Int) ∧ cellsCover cells x (j + 1) c) :=
          fun h => hn ⟨h.1, (cellsCover_cons _ _ _ _ _).2 (Or.inr h.2)⟩
        have hn2 : ¬ (r = y + (i : Int) ∧ c = x + (j : Int)) :=
          fun h => hn ⟨h.1, (cellsCover_cons _ _ _ _ _).2 (Or.inl ⟨hc, h.2⟩)⟩
        rw [q1 r c hn1, cellAt_setCell_other _ _ _ _ _ _ hn2]
    · simp only [hc, if_false]
      obtain ⟨g1, e1, l1, p1, q1⟩ := ih (j + 1) g
        (fun c hcov => hin c ((cellsCover_cons _ _ _ _ _).2 (Or.inr hcov)))
      have hiff : ∀ c, cellsCover (cell :: cells) x j c ↔ cellsCover cells x (j + 1) c := by
        intro c; rw [cellsCover_cons]; constructor
        · rintro (⟨h, -⟩ | h)
          · exact absurd h hc
          · exact h
        · exact Or.inr
      refine ⟨g1, e1, l1, ?_, ?_⟩
      · intro r c hr hcov; exact p1 r c hr ((hiff c).1 hcov)
      · intro r c hn; exact q1 r c (fun h => hn ⟨h.1, (hiff c).2 h.2⟩)

theorem addRows_spec (x y : Int) (rows : List (List Int)) (i : Nat) (g : List (List Int))
    (hin : ∀ r c, rowsCover rows x y i r c → inRange g r c) :
    ∃ g1, addRows x y rows i g = some g1 ∧ g1.map List.length = g.map List.length ∧
      (∀ r c, rowsCover rows x y i r c → cellAt g1 r c = 1) ∧
      (∀ r c, ¬ rowsCover rows x y i r c → cellAt g1 r c = cellAt g r c) := by
  induction rows generalizing i g with
  | nil =>
    exact ⟨g, rfl, rfl, fun r c h => absurd h (rowsCover_nil _ _ _ _ _), fun _ _ _ => rfl⟩
  | cons row rows ih =>
    unfold addRows
    obtain ⟨g0, e0, l0, p0, q0⟩ := addCells_spec x y i row 0 g
      (fun c hcov => hin _ c ((rowsCover_cons _ _ _ _ _ _ _).2 (Or.inl ⟨rfl, hcov⟩)))
    obtain ⟨g1, e1, l1, p1, q1⟩ := ih (i + 1) g0
      (fun r c hcov => (inRange_congr l0 _ _).2
        (hin r c ((rowsCover_cons _ _ _ _ _ _ _).2 (Or.inr hcov))))
    simp only [e0]
    refine ⟨g1, e1, l1.trans l0, ?_, ?_⟩
    · intro r c hcov
      by_cases ht : rowsCover rows x y (i + 1) r c
      · exact p1 r c ht
      · rw [q1 r c ht]
        rcases (rowsCover_cons _ _ _ _ _ _ _).1 hcov with ⟨h1, h2⟩ | h2
        · exact p0 r c h1 h2
        · exact absurd h2 ht
    · intro r c hn
      rw [q1 r c (fun h => hn ((rowsCover_cons _ _ _ _ _ _ _).2 (Or.inr h))),
        q0 r c (fun h => hn ((rowsCover_cons _ _ _ _ _ _ _).2 (Or.inl h)))]

theorem clearCells_spec (w h x y : Int) (i : Nat) (cells : List Int) (j : Nat)
    (g : List (List Int))
    (hdim : ∀ r c, inRange g r c ↔ (c ≥ 0 ∧ c < w ∧ r ≥ 0 ∧ r < h)) :
    (clearCells w h x y i cells j g).map List.length = g.map List.length ∧
      (∀ r c, r = y + (i : Int) → cellsCover cells x j c →
        cellAt (clearCells w h x y i cells j g) r c = 0) ∧
      (∀ r c, ¬ (r = y + (i : Int) ∧ cellsCover cells x j c) →
        cellAt (clearCells w h x y i cells j g) r c = cellAt g r c) := by
  induction cells generalizing j g with
  | nil =>
    exact ⟨rfl, fun r c _ h => absurd h (cellsCover_nil _ _ _), fun _ _ _ => rfl⟩
  | cons cell cells ih =>
    unfold clearCells
    by_cases hc : cell = 1
    · subst hc
      have hc : (1 : Int) = 1 := rfl
      simp only [if_true]
      by_cases hg : x + (j : Int) ≥ 0 ∧ x + (j : Int) < w ∧ y + (i : Int) ≥ 0 ∧ y + (i : Int) < h
      · rw [if_pos hg]
        have h0 : inRange g (y + (i : Int)) (x + (j : Int)) := (hdim _ _).2 hg
        obtain ⟨l1, p1, q1⟩ := ih (j + 1) (setCell g (y + (i : Int)) (x + (j : Int)) 0)
          (fun r c => (inRange_congr (setCell_lens _ _ _ _) _ _).trans (hdim r c))
        refine ⟨l1.trans (setCell_lens _ _ _ _), ?_, ?_⟩
        · intro r c hr hcov
          by_cases ht : cellsCover cells x (j + 1) c
          · exact p1 r c hr ht
          · rw [q1 r c (fun h => ht h.2)]
            rcases (cellsCover_cons _ _ _ _ _).1 hcov with ⟨-, h2⟩ | h2
            · rw [hr, h2]; exact cellAt_setCell_self _ _ _ _ h0
            · exact absurd h2 ht
        · intro r c hn
          have hn1 : ¬ (r = y + (i : Int) ∧ cellsCover cells x (j + 1) c) :=
            fun h => hn ⟨h.1, (cellsCover_cons _ _ _ _ _).2 (Or.inr h.2)⟩
          have hn2 : ¬ (r = y + (i : Int) ∧ c = x + (j : Int)) :=
            fun h => hn ⟨h.1, (cellsCover_cons _ _ _ _ _).2 (Or.inl ⟨hc, h.2⟩)⟩
          rw [q1 r c hn1, cellAt_setCell_other _ _ _ _ _ _ hn2]
      · rw [if_neg hg]
        obtain ⟨l1, p1, q1⟩ := ih (j + 1) g hdim
        refine ⟨l1, ?_, ?_⟩
        · intro r c hr hcov
          by_cases ht : cellsCover cells x (j + 1) c
          · exact p1 r c hr ht
          · rw [q1 r c (fun h => ht h.2)]
            rcases (cellsCover_cons _ _ _ _ _).1 hcov with ⟨-, h2⟩ | h2
            · rw [hr, h2]
              exact cellAt_of_not_inRange _ _ _ (fun hr => hg ((hdim _ _).1 hr))
            · exact absurd h2 ht
        · intro r c hn
          exact q1 r c (fun h => hn ⟨h.1, (cellsCover_cons _ _ _ _ _).2 (Or.inr h.2)⟩)
    · simp only [hc, if_false]
      obtain ⟨l1, p1, q1⟩ := ih (j + 1) g hdim
      have hiff : ∀ c, cellsCover (cell :: cells) x j c ↔ cellsCover cells x (j + 1) c := by
        intro c; rw [cellsCover_cons]; constructor
        · rintro (⟨h, -⟩ | h)
          · exact absurd h hc
          · exact h
        · exact Or.inr
      refine ⟨l1, ?_, ?_⟩
      · intro r c hr hcov; exact p1 r c hr ((hiff c).1 hcov)
      · intro r c hn; exact q1 r c (fun h => hn ⟨h.1, (hiff c).2 h.2⟩)

theorem clearRows_spec (w h x y : Int) (rows : List (List Int)) (i : Nat)
    (g : List (List Int))
    (hdim : ∀ r c, inRange g r c ↔ (c ≥ 0 ∧ c < w ∧ r ≥ 0 ∧ r < h)) :
    (clearRows w h x y rows i g).map List.length = g.map List.length ∧
      (∀ r c, rowsCover rows x y i r c → cellAt (clearRows w h x y rows i g) r c = 0) ∧
      (∀ r c, ¬ rowsCover rows x y i r c →
        cellAt (clearRows w h x y rows i g) r c = cellAt g r c) := by
  induction rows generalizing i g with
  | nil =>
    exact ⟨rfl, fun r c h => absurd h (rowsCover_nil _ _ _ _ _), fun _ _ _ => rfl⟩
  | cons row rows ih =>
    unfold clearRows
    obtain ⟨l0, p0, q0⟩ := clearCells_spec w h x y i row 0 g hdim
    obtain ⟨l1, p1, q1⟩ := ih (i + 1) (clearCells w h x y i row 0 g)
      (fun r c => (inRange_congr l0 _ _).trans (hdim r c))
    refine ⟨l1.trans l0, ?_, ?_⟩
    · intro r c hcov
      by_cases ht : rowsCover rows x y (i + 1) r c
      · exact p1 r c ht
      · rw [q1 r c ht]
        rcases (rowsCover_cons _ _ _ _ _ _ _).1 hcov with ⟨h1, h2⟩ | h2
        · exact p0 r c h1 h2
        · exact absurd h2 ht
    · intro r c hn
      rw [q1 r c (fun h => hn ((rowsCover_cons _ _ _ _ _ _ _).2 (Or.inr h))),
        q0 r c (fun h => hn ((rowsCover_cons _ _ _ _ _ _ _).2 (Or.inl h)))]

theorem Board.Rect.inRange_iff {b : Board} (hb : b.Rect) (r c : Int) :
    inRange b.grid r c ↔ (c ≥ 0 ∧ c < b.width ∧ r ≥ 0 ∧ r < b.height) := by
  obtain ⟨h1, h2⟩ := hb
  unfold inRange
  constructor
  · rintro ⟨a1, a2, a3, a4⟩
    have hlt : r.toNat < b.grid.length := by omega
    have e : b.grid.getD r.toNat [] = b.grid[r.toNat] := List.getD_eq_getElem _ _ hlt
    rw [e] at a4
    have := h2 _ (List.getElem_mem hlt)
    omega
  · rintro ⟨a1, a2, a3, a4⟩
    have hlt : r.toNat < b.grid.length := by omega
    have e : b.grid.getD r.toNat [] = b.grid[r.toNat] := List.getD_eq_getElem _ _ hlt
    rw [e]
    have := h2 _ (List.getElem_mem hlt)
    omega

theorem Board.Rect.of_lens {b : Board} (hb : b.Rect) (g : List (List Int))
    (hl : g.map List.length = b.grid.map List.length) :
    Board.Rect { b with grid := g } := by
  obtain ⟨h1, h2⟩ := hb
  have hlen : g.length = b.grid.length := by simpa using congrArg List.length hl
  refine ⟨by simpa [hlen] using h1, ?_⟩
  intro row hrow
  have hrow : row ∈ g := hrow
  obtain ⟨n, hn, rfl⟩ := List.getElem_of_mem hrow
  have hn2 : n < b.grid.length := by omega
  have e := getD_map_length g n
  rw [hl, getD_map_length, List.getD_eq_getElem _ _ hn, List.getD_eq_getElem _ _ hn2] at e
  show ((g[n]).length : Int) = b.width
  rw [← e]
  exact h2 _ (List.getElem_mem hn2)

theorem addTetromino_spec (b : Board) (hb : b.Rect) (s : List (List Int)) (x y : Int)
    (hin : ∀ r c, covers s x y r c → c ≥ 0 ∧ c < b.width ∧ r ≥ 0 ∧ r < b.height) :
    ∃ g1, b.addTetromino s x y = some { b with grid := g1 } ∧
      g1.map List.length = b.grid.map List.length ∧
      (∀ r c, covers s x y r c → cellAt g1 r c = 1) ∧
      (∀ r c, ¬ covers s x y r c → cellAt g1 r c = cellAt b.grid r c) := by
  obtain ⟨g1, e1, l1, p1, q1⟩ := addRows_spec x y s 0 b.grid
    (fun r c hcov => (hb.inRange_iff r c).2 (hin r c ((covers_iff_rowsCover _ _ _ _ _).2 hcov)))
  refine ⟨g1, ?_, l1, ?_, ?_⟩
  · unfold Board.addTetromino; rw [e1]
  · intro r c hcov; exact p1 r c ((covers_iff_rowsCover _ _ _ _ _).1 hcov)
  · intro r c hn; exact q1 r c (fun h => hn ((covers_iff_rowsCover _ _ _ _ _).2 h))

theorem clearTetromino_spec (b : Board) (hb : b.Rect) (s : List (List Int)) (x y : Int) :
    ((b.clearTetromino s x y).grid).map List.length = b.grid.map List.length ∧
      (∀ r c, covers s x y r c → cellAt (b.clearTetromino s x y).grid r c = 0) ∧
      (∀ r c, ¬ covers s x y r c →
        cellAt (b.clearTetromino s x y).grid r c = cellAt b.grid r c) := by
  obtain ⟨l1, p1, q1⟩ := clearRows_spec b.width b.height x y s 0 b.grid hb.inRange_iff
  refine ⟨l1, ?_, ?_⟩
  · intro r c hcov; exact p1 r c ((covers_iff_rowsCover _ _ _ _ _).1 hcov)
  · intro r c hn; exact q1 r c (fun h => hn ((covers_iff_rowsCover _ _ _ _ _).2 h))

/-! ## `canPlaceTetromino` -/

theorem canPlaceCells_iff (b : Board) (x y : Int) (i : Nat) (cells : List Int) (j : Nat) :
    canPlaceCells b x y i cells j = true ↔
      ∀ k : Nat, cells.getD k 0 = 1 → b.free (y + (i : Int)) (x + ((j + k : Nat) : Int)) := by
  induction cells generalizing j with
  | nil => simp [canPlaceCells]
  | cons cell cells ih =>
    unfold canPlaceCells
    constructor
    · intro h k hk
      by_cases hc : cell = 1
      · simp only [hc, if_true] at h
        split at h
        · exact absurd h (by simp)
        · rename_i hfree
          cases k with
          | zero =>
            simp only [Board.free, Nat.add_zero]
            omega
          | succ k =>
            have := (ih (j + 1)).1 h k (by simpa using hk)
            have e : j + 1 + k = j + (k + 1) := by omega
            rwa [e] at this
      · simp only [hc, if_false] at h
        cases k with
        | zero => simp at hk; exact absurd hk hc
        | succ k =>
          have := (ih (j + 1)).1 h k (by simpa using hk)
          have e : j + 1 + k = j + (k + 1) := by omega
          rwa [e] at this
    · intro h
      have htail : canPlaceCells b x y i cells (j + 1) = true := by
        rw [ih]
        intro k hk
        have := h (k + 1) (by simpa using hk)
        have e : j + 1 + k = j + (k + 1) := by omega
        rwa [e]
      by_cases hc : cell = 1
      · have h0 := h 0 (by simpa using hc)
        simp only [Board.free, Nat.add_zero] at h0
        simp only [hc, if_true]
        rw [if_neg (by omega)]
        exact htail
      · simp only [hc, if_false]
        exact htail

theorem canPlaceRows_iff (b : Board) (x y : Int) (rows : List (List Int)) (i : Nat) :
    canPlaceRows b x y rows i = true ↔
      ∀ k j : Nat, shapeFilled rows k j → b.free (y + ((i + k : Nat) : Int)) (x + (j : Int)) := by
  induction rows generalizing i with
  | nil => simp [canPlaceRows, shapeFilled]
  | cons row rows ih =>
    unfold canPlaceRows
    constructor
    · intro h k j hk
      by_cases hr : canPlaceCells b x y i row 0 = true
      · simp only [hr, if_true] at h
        cases k with
        | zero =>
          have := (canPlaceCells_iff b x y i row 0).1 hr j (by simpa [shapeFilled] using hk)
          simpa using this
        | succ k =>
          have := (ih (i + 1)).1 h k j (by simpa [shapeFilled] using hk)
          have e : i + 1 + k = i + (k + 1) := by omega
          rwa [e] at this
      · simp [hr] at h
    · intro h
      have h0 : canPlaceCells b x y i row 0 = true := by
        rw [canPlaceCells_iff]
        intro k hk
        have := h 0 k (by simpa [shapeFilled] using hk)
        simpa using this
      rw [if_pos h0, ih]
      intro k j hk
      have := h (k + 1) j (by simpa [shapeFilled] using hk)
      have e : i + 1 + k = i + (k + 1) := by omega
      rwa [e]

theorem canPlaceTetromino_iff_free (b : Board) (s : List (List Int)) (x y : Int) :
    b.canPlaceTetromino s x y = true ↔
      ∀ i j : Nat, shapeFilled s i j → b.free (y + (i : Int)) (x + (j : Int)) := by
  unfold Board.canPlaceTetromino
  rw [canPlaceRows_iff]
  simp

theorem cell?_eq_some_cellAt {b : Board} (hb : b.Rect) (r c : Int)
    (h : c ≥ 0 ∧ c < b.width ∧ r ≥ 0 ∧ r < b.height) :
    b.cell? r c = some (cellAt b.grid r c) := by
  obtain ⟨h1, h2, h3, h4⟩ := (hb.inRange_iff r c).2 h
  have hlt : r.toNat < b.grid.length := by omega
  have e : b.grid.getD r.toNat [] = b.grid[r.toNat] := List.getD_eq_getElem _ _ hlt
  rw [e] at h4
  have hlt2 : c.toNat < (b.grid[r.toNat]).length := by omega
  unfold Board.cell? cellAt
  rw [if_pos ⟨h1, h3⟩, if_pos ⟨h1, h3⟩, e, List.getElem?_eq_getElem hlt]
  simp only
  rw [List.getElem?_eq_getElem hlt2, List.getD_eq_getElem _ _ hlt2]

theorem Board.Binary.cellAt_cases {b : Board} (hb : b.Binary) (r c : Int) :
    cellAt b.grid r c = 0 ∨ cellAt b.grid r c = 1 := by
  by_cases h : inRange b.grid r c
  · obtain ⟨h1, h2, h3, h4⟩ := h
    have hlt : r.toNat < b.grid.length := by omega
    have e : b.grid.getD r.toNat [] = b.grid[r.toNat] := List.getD_eq_getElem _ _ hlt
    rw [e] at h4
    have hlt2 : c.toNat < (b.grid[r.toNat]).length := by omega
    unfold cellAt
    rw [if_pos ⟨h1, h3⟩, e, List.getD_eq_getElem _ _ hlt2]
    exact hb _ (List.getElem_mem hlt) _ (List.getElem_mem hlt2)
  · exact Or.inl (cellAt_of_not_inRange _ _ _ h)

/-- C1. On a board whose grid has `height` rows of `width` cells,
`canPlaceTetromino(shape, x, y)` returns true exactly when every filled cell `(i, j)` of
the shape satisfies `0 <= x+j < width`, `0 <= y+i < height` and `grid[y+i][x+j]` exists and
is not filled (second part: when all cells are `0` or `1`, exactly when that grid cell
holds `0`). Hence it returns false as soon as one filled cell maps outside the board or
onto a filled cell (third part), and true for a shape without filled cell (fourth part). -/
theorem canPlaceTetromino_iff (b : Board) (hb : b.Rect) (s : List (List Int)) (x y : Int) :
    (b.canPlaceTetromino s x y = true ↔
      ∀ i j : Nat, shapeFilled s i j →
        0 ≤ x + (j : Int) ∧ x + (j : Int) < b.width ∧
        0 ≤ y + (i : Int) ∧ y + (i : Int) < b.height ∧
        ∃ cell, b.cell? (y + (i : Int)) (x + (j : Int)) = some cell ∧ cell ≠ 1) ∧
    (b.Binary →
      (b.canPlaceTetromino s x y = true ↔
        ∀ i j : Nat, shapeFilled s i j →
          0 ≤ x + (j : Int) ∧ x + (j : Int) < b.width ∧
          0 ≤ y + (i : Int) ∧ y + (i : Int) < b.height ∧
          b.cell? (y + (i : Int)) (x + (j : Int)) = some 0)) ∧
    (∀ i j : Nat, shapeFilled s i j →
      (x + (j : Int) < 0 ∨ b.width ≤ x + (j : Int) ∨ y + (i : Int) < 0 ∨
        b.height ≤ y + (i : Int) ∨ b.cell? (y + (i : Int)) (x + (j : Int)) = some 1) →
      b.canPlaceTetromino s x y = false) ∧
    ((∀ i j : Nat, ¬ shapeFilled s i j) → b.canPlaceTetromino s x y = true) := by
  have key : ∀ r c : Int, b.free r c ↔
      (0 ≤ c ∧ c < b.width ∧ 0 ≤ r ∧ r < b.height ∧
        ∃ cell, b.cell? r c = some cell ∧ cell ≠ 1) := by
    intro r c
    constructor
    · rintro ⟨h1, h2, h3, h4, h5⟩
      exact ⟨h1, h2, h3, h4, _, cell?_eq_some_cellAt hb r c ⟨h1, h2, h3, h4⟩, h5⟩
    · rintro ⟨h1, h2, h3, h4, cell, h5, h6⟩
      rw [cell?_eq_some_cellAt hb r c ⟨h1, h2, h3, h4⟩] at h5
      refine ⟨h1, h2, h3, h4, ?_⟩
      rw [Option.some.inj h5]; exact h6
  have first : b.canPlaceTetromino s x y = true ↔
      ∀ i j : Nat, shapeFilled s i j →
        0 ≤ x + (j : Int) ∧ x + (j : Int) < b.width ∧
        0 ≤ y + (i : Int) ∧ y + (i : Int) < b.height ∧
        ∃ cell, b.cell? (y + (i : Int)) (x + (j : Int)) = some cell ∧ cell ≠ 1 := by
    rw [canPlaceTetromino_iff_free]
    exact forall_congr' fun i => forall_congr' fun j => imp_congr_right fun _ => key _ _
  refine ⟨first, ?_, ?_, ?_⟩
  · intro hbin
    rw [first]
    refine forall_congr' fun i => forall_congr' fun j => imp_congr_right fun _ => ?_
    constructor
    · rintro ⟨h1, h2, h3, h4, cell, h5, h6⟩
      refine ⟨h1, h2, h3, h4, ?_⟩
      have e := cell?_eq_some_cellAt hb _ _ ⟨h1, h2, h3, h4⟩
      rw [e] at h5
      rcases hbin.cellAt_cases (y + (i : Int)) (x + (j : Int)) with h0 | h0
      · rw [e, h0]
      · rw [h0] at h5; exact absurd (Option.some.inj h5).symm h6
    · rintro ⟨h1, h2, h3, h4, h5⟩
      exact ⟨h1, h2, h3, h4, 0, h5, by decide⟩
  · intro i j hf hbad
    cases hres : b.canPlaceTetromino s x y with
    | false => rfl
    | true =>
      obtain ⟨h1, h2, h3, h4, cell, h5, h6⟩ := first.1 hres i j hf
      rcases hbad with h | h | h | h | h
      · omega
      · omega
      · omega
      · omega
      · rw [h] at h5; exact absurd (Option.some.inj h5).symm h6
  · intro hnone
    exact first.2 (fun i j hf => absurd hf (hnone i j))

/-- C1, at a concrete input: the line piece at the spawn anchor of the empty 10x20 board. -/
theorem canPlaceTetromino_iff_witness :
    (Board.create 10 20).Rect ∧
    ((Board.create 10 20).canPlaceTetromino
        [[1, 1, 1, 1], [0, 0, 0, 0], [0, 0, 0, 0], [0, 0, 0, 0]] 3 0 = true ↔
      ∀ i j : Nat, shapeFilled [[1, 1, 1, 1], [0, 0, 0, 0], [0, 0, 0, 0], [0, 0, 0, 0]] i j →
        0 ≤ (3 : Int) + (j : Int) ∧ (3 : Int) + (j : Int) < (Board.create 10 20).width ∧
        0 ≤ (0 : Int) + (i : Int) ∧ (0 : Int) + (i : Int) < (Board.create 10 20).height ∧
        ∃ cell, (Board.create 10 20).cell? (0 + (i : Int)) (3 + (j : Int)) = some cell ∧
          cell ≠ 1) :=
  ⟨by decide, (canPlaceTetromino_iff (Board.create 10 20) (by decide) _ 3 0).1⟩

/-! ## `clearFullLines` -/

theorem rowFull_replicate_zero (w : Int) (hw : 0 < w) :
    rowFull (List.replicate w.toNat (0 : Int)) = false := by
  obtain ⟨n, hn⟩ : ∃ n, w.toNat = n + 1 := ⟨w.toNat - 1, by omega⟩
  rw [hn]
  rfl

theorem clearFullLinesLoop_spec (width : Int) (hw : 0 < width) (fuel : Nat) :
    ∀ (n : Nat) (g : List (List Int)), n ≤ g.length → n + fullCount (g.take n) ≤ fuel →
      clearFullLinesLoop width fuel g ((n : Int) - 1) =
        some (List.replicate (fullCount (g.take n)) (List.replicate width.toNat (0 : Int)) ++
          (g.take n).filter (fun row => !rowFull row) ++ g.drop n) := by
  induction fuel with
  | zero =>
    intro n g _ hf
    have hn : n = 0 := by omega
    subst hn
    unfold clearFullLinesLoop
    simp [fullCount]
  | succ fuel ih =>
    intro n g hn hf
    cases n with
    | zero =>
      unfold clearFullLinesLoop
      simp [fullCount]
    | succ k =>
      have hk : k < g.length := by omega
      have hi : ((k + 1 : Nat) : Int) - 1 = (k : Int) := by omega
      rw [hi]
      unfold clearFullLinesLoop
      rw [if_pos (by omega)]
      simp only [Int.toNat_ofNat, List.getElem?_eq_getElem hk]
      have htake : g.take (k + 1) = g.take k ++ [g[k]] := by
        rw [List.take_succ, List.getElem?_eq_getElem hk]; rfl
      have hdrop : g.drop k = g[k] :: g.drop (k + 1) := List.drop_eq_getElem_cons hk
      have hlen : (g.take k).length = k := by rw [List.length_take]; omega
      by_cases hfull : rowFull g[k] = true
      · rw [if_pos hfull]
        have hi2 : (k : Int) + 1 - 1 = ((k + 1 : Nat) : Int) - 1 := by omega
        rw [hi2]
        have hfc : fullCount (g.take (k + 1)) = fullCount (g.take k) + 1 := by
          rw [htake]; unfold fullCount; rw [List.countP_append]; simp [hfull]
        have hfil : (g.take (k + 1)).filter (fun row => !rowFull row) =
            (g.take k).filter (fun row => !rowFull row) := by
          rw [htake, List.filter_append]; simp [hfull]
        have he : g.eraseIdx k = g.take k ++ g.drop (k + 1) := List.eraseIdx_eq_take_drop_succ g k
        have ht2 : (List.replicate width.toNat (0 : Int) :: g.eraseIdx k).take (k + 1) =
            List.replicate width.toNat (0 : Int) :: g.take k := by
          rw [List.take_succ_cons, he, List.take_left' hlen]
        have hd2 : (List.replicate width.toNat (0 : Int) :: g.eraseIdx k).drop (k + 1) =
            g.drop (k + 1) := by
          rw [List.drop_succ_cons, he, List.drop_left' hlen]
        have hfc2 : fullCount (List.replicate width.toNat (0 : Int) :: g.take k) =
            fullCount (g.take k) := by
          simp [fullCount, List.countP_cons, rowFull_replicate_zero width hw]
        rw [ih (k + 1) _ (by simp [List.length_eraseIdx, hk]; omega)
          (by rw [ht2, hfc2]; omega)]
        have hfil2 : (List.replicate width.toNat (0 : Int) :: g.take k).filter
            (fun row => !rowFull row) =
            List.replicate width.toNat (0 : Int) :: (g.take k).filter (fun row => !rowFull row) := by
          rw [List.filter_cons]; simp [rowFull_replicate_zero width hw]
        rw [ht2, hd2, hfc2, hfc, hfil, hfil2, List.replicate_succ']
        simp
      · rw [if_neg hfull]
        have hfc : fullCount (g.take (k + 1)) = fullCount (g.take k) := by
          rw [htake]; unfold fullCount; rw [List.countP_append]; simp [hfull]
        have hfil : (g.take (k + 1)).filter (fun row => !rowFull row) =
            (g.take k).filter (fun row => !rowFull row) ++ [g[k]] := by
          rw [htake, List.filter_append]; simp [hfull]
        have hi2 : (k : Int) - 1 = ((k : Nat) : Int) - 1 := rfl
        rw [hi2, ih k g (by omega) (by omega)]
        rw [hfc, hfil, hdrop]
        simp

theorem clearFullLines_spec (b : Board) (hb : b.Rect) (hw : 0 < b.width) (fuel : Nat)
    (hf : b.grid.length + fullCount b.grid ≤ fuel) :
    b.clearFullLines fuel =
      some { b with grid :=
        List.replicate (fullCount b.grid) (List.replicate b.width.toNat (0 : Int)) ++
          b.grid.filter (fun row => !rowFull row) } := by
  have h := clearFullLinesLoop_spec b.width hw fuel b.grid.length b.grid (le_refl _)
    (by simpa using hf)
  rw [hb.1] at h
  unfold Board.clearFullLines
  rw [h]
  simp

theorem clearFullLinesLoop_mono (width : Int) (fuel : Nat) :
    ∀ (g : List (List Int)) (i : Int) (r : List (List Int)),
      clearFullLinesLoop width fuel g i = some r →
      clearFullLinesLoop width (fuel + 1) g i = some r := by
  induction fuel with
  | zero =>
    intro g i r h
    unfold clearFullLinesLoop at h ⊢
    by_cases hi : i ≥ 0
    · simp [hi] at h
    · simpa [hi] using h
  | succ fuel ih =>
    intro g i r h
    unfold clearFullLinesLoop
    unfold clearFullLinesLoop at h
    by_cases hi : i ≥ 0
    · rw [if_pos hi] at h ⊢
      simp only at h ⊢
      cases hrow : g[i.toNat]? with
      | none => rw [hrow] at h; simp at h
      | some row =>
        rw [hrow] at h
        simp only at h ⊢
        by_cases hfull : rowFull row = true
        · rw [if_pos hfull] at h ⊢
          exact ih _ _ _ h
        · rw [if_neg hfull] at h ⊢
          exact ih _ _ _ h
    · rw [if_neg hi] at h ⊢
      exact h

theorem clearFullLinesLoop_mono_le (width : Int) (fuel fuel1 : Nat) (hle : fuel ≤ fuel1)
    (g : List (List Int)) (i : Int) (r : List (List Int))
    (h : clearFullLinesLoop width fuel g i = some r) :
    clearFullLinesLoop width fuel1 g i = some r := by
  induction fuel1 with
  | zero =>
    have : fuel = 0 := by omega
    subst this; exact h
  | succ n ih =>
    by_cases hn : fuel = n + 1
    · subst hn; exact h
    · exact clearFullLinesLoop_mono width n g i r (ih (by omega))

theorem clearFullLines_mono_le (fuel fuel1 : Nat) (hle : fuel ≤ fuel1) (b b1 : Board)
    (h : b.clearFullLines fuel = some b1) : b.clearFullLines fuel1 = some b1 := by
  unfold Board.clearFullLines at h ⊢
  cases hl : clearFullLinesLoop b.width fuel b.grid (b.height - 1) with
  | none => rw [hl] at h; simp at h
  | some g =>
    rw [hl] at h
    rw [clearFullLinesLoop_mono_le b.width fuel fuel1 hle _ _ _ hl]
    exact h

/-- C2. On a board of positive width, `clearFullLines` leaves the grid equal to `k`
all-empty rows followed by the rows of the original grid that were not completely filled,
in their original order, `k` being the number of completely filled rows: this is the
result as soon as the loop body may run `height + k` times, and the only result the loop
can produce. -/
theorem clearFullLines_compacts (b : Board) (hb : b.Rect) (hw : 0 < b.width) :
    (∀ fuel : Nat, b.grid.length + fullCount b.grid ≤ fuel →
      b.clearFullLines fuel =
        some { b with grid :=
          List.replicate (fullCount b.grid) (List.replicate b.width.toNat (0 : Int)) ++
            b.grid.filter (fun row => !rowFull row) }) ∧
    (∀ (fuel : Nat) (b1 : Board), b.clearFullLines fuel = some b1 →
      b1.grid =
        List.replicate (fullCount b.grid) (List.replicate b.width.toNat (0 : Int)) ++
          b.grid.filter (fun row => !rowFull row)) := by
  refine ⟨fun fuel hf => clearFullLines_spec b hb hw fuel hf, ?_⟩
  intro fuel b1 h
  have h1 := clearFullLines_mono_le fuel (fuel + (b.grid.length + fullCount b.grid))
    (by omega) b b1 h
  rw [clearFullLines_spec b hb hw _ (by omega)] at h1
  rw [← Option.some.inj h1]

/-- C2, at a concrete input: a 2x3 board whose rows 0 and 2 are completely filled. -/
theorem clearFullLines_compacts_witness :
    Board.clearFullLines 5 { width := 2, height := 3, grid := [[1, 1], [0, 1], [1, 1]] } =
      some { width := 2, height := 3, grid := [[0, 0], [0, 0], [0, 1]] } :=
  (clearFullLines_compacts { width := 2, height := 3, grid := [[1, 1], [0, 1], [1, 1]] }
    (by decide) (by decide)).1 5 (by decide)

/-- C3. On a board of positive width (of any height, so also of positive height), after
`clearFullLines` (run with enough fuel for `height + k` executions of the loop body, `k`
the number of full rows) no row of the grid is completely filled, and if some row was
completely filled before the call then row 0 exists and holds `width` cells that are all
`0`. -/
theorem clearFullLines_no_full_row (b : Board) (hb : b.Rect) (hw : 0 < b.width)
    (fuel : Nat) (hf : b.grid.length + fullCount b.grid ≤ fuel) :
    ∃ b1, b.clearFullLines fuel = some b1 ∧
      b1.width = b.width ∧ b1.height = b.height ∧
      (∀ row ∈ b1.grid, rowFull row = false) ∧
      (0 < fullCount b.grid →
        ∃ row0, b1.grid[0]? = some row0 ∧ (row0.length : Int) = b.width ∧
          ∀ cell ∈ row0, cell = 0) := by
  refine ⟨_, clearFullLines_spec b hb hw fuel hf, rfl, rfl, ?_, ?_⟩
  · intro row hrow
    simp only [List.mem_append, List.mem_replicate, List.mem_filter] at hrow
    rcases hrow with ⟨-, rfl⟩ | ⟨-, h⟩
    · exact rowFull_replicate_zero _ hw
    · simpa using h
  · intro hk
    refine ⟨List.replicate b.width.toNat 0, ?_, ?_, ?_⟩
    · obtain ⟨n, hn⟩ : ∃ n, fullCount b.grid = n + 1 := ⟨fullCount b.grid - 1, by omega⟩
      simp only [hn, List.replicate_succ, List.cons_append, List.getElem?_cons_zero]
    · simp only [List.length_replicate]; omega
    · intro cell hcell
      exact (List.mem_replicate.1 hcell).2

/-- C3, at a concrete input: a 2x3 board whose rows 0 and 2 are completely filled. -/
theorem clearFullLines_no_full_row_witness :
    ∃ b1, Board.clearFullLines 5 { width := 2, height := 3, grid := [[1, 1], [0, 1], [1, 1]] } =
        some b1 ∧
      b1.width = 2 ∧ b1.height = 3 ∧
      (∀ row ∈ b1.grid, rowFull row = false) ∧
      (0 < fullCount [[1, 1], [0, 1], [1, 1]] →
        ∃ row0, b1.grid[0]? = some row0 ∧ (row0.length : Int) = 2 ∧ ∀ cell ∈ row0, cell = 0) :=
  clearFullLines_no_full_row { width := 2, height := 3, grid := [[1, 1], [0, 1], [1, 1]] }
    (by decide) (by decide) 5 (by decide)

/-! ## `addTetromino` followed by `clearTetromino` -/

theorem inside_covers {b : Board} {s : List (List Int)} {x y : Int} (h : b.inside s x y)
    (r c : Int) (hc : covers s x y r c) : c ≥ 0 ∧ c < b.width ∧ r ≥ 0 ∧ r < b.height := by
  obtain ⟨i, j, hf, rfl, rfl⟩ := hc
  exact h i j hf

/-- C4 as stated fails: on the 4x2 board whose cell `(1, 0)` is filled, the line piece at
anchor `(0, 1)` has all its filled cells inside the board, yet `addTetromino` followed by
`clearTetromino` leaves row 1 all empty, not the grid before the two calls. -/
theorem addTetromino_clearTetromino_overlap :
    Board.WellFormed { width := 4, height := 2, grid := [[0, 0, 0, 0], [1, 0, 0, 0]] } ∧
    Board.inside { width := 4, height := 2, grid := [[0, 0, 0, 0], [1, 0, 0, 0]] }
      [[1, 1, 1, 1], [0, 0, 0, 0], [0, 0, 0, 0], [0, 0, 0, 0]] 0 1 ∧
    (Board.addTetromino { width := 4, height := 2, grid := [[0, 0, 0, 0], [1, 0, 0, 0]] }
        [[1, 1, 1, 1], [0, 0, 0, 0], [0, 0, 0, 0], [0, 0, 0, 0]] 0 1).map
      (fun b1 => b1.clearTetromino [[1, 1, 1, 1], [0, 0, 0, 0], [0, 0, 0, 0], [0, 0, 0, 0]] 0 1) =
      some { width := 4, height := 2, grid := [[0, 0, 0, 0], [0, 0, 0, 0]] } ∧
    ({ width := 4, height := 2, grid := [[0, 0, 0, 0], [0, 0, 0, 0]] } : Board) ≠
      { width := 4, height := 2, grid := [[0, 0, 0, 0], [1, 0, 0, 0]] } := by
  decide

/-- C4, amended. On a rectangular board, when all filled cells of the shape map inside the
board and onto cells that hold `0` (as they do when `canPlaceTetromino` accepts the
anchor on a board of cells `0`/`1`), `addTetromino` succeeds and `clearTetromino` at the
same anchor then gives back the board as it was before the two calls. -/
theorem addTetromino_clearTetromino (b : Board) (hb : b.Rect) (s : List (List Int))
    (x y : Int) (hin : b.inside s x y) (hempty : b.emptyUnder s x y) :
    ∃ b1, b.addTetromino s x y = some b1 ∧ b1.clearTetromino s x y = b := by
  obtain ⟨g1, e1, l1, p1, q1⟩ := addTetromino_spec b hb s x y (inside_covers hin)
  refine ⟨_, e1, ?_⟩
  have hb1 : Board.Rect { b with grid := g1 } := hb.of_lens g1 l1
  obtain ⟨l2, p2, q2⟩ := clearTetromino_spec _ hb1 s x y
  have hgrid : (Board.clearTetromino { b with grid := g1 } s x y).grid = b.grid := by
    apply grid_ext (l2.trans l1)
    intro r c _
    by_cases hc : covers s x y r c
    · rw [p2 r c hc]
      obtain ⟨i, j, hf, rfl, rfl⟩ := hc
      have h0 := hempty i j hf
      rw [cell?_eq_some_cellAt hb _ _ (hin i j hf)] at h0
      exact (Option.some.inj h0).symm
    · rw [q2 r c hc]
      exact q1 r c hc
  cases b with
  | mk w h g =>
    simp only [Board.clearTetromino] at hgrid ⊢
    rw [hgrid]

/-- C4 amended, at a concrete input: the line piece at the bottom of the empty 10x20
board. -/
theorem addTetromino_clearTetromino_witness :
    ∃ b1, (Board.create 10 20).addTetromino
        [[1, 1, 1, 1], [0, 0, 0, 0], [0, 0, 0, 0], [0, 0, 0, 0]] 3 19 = some b1 ∧
      b1.clearTetromino [[1, 1, 1, 1], [0, 0, 0, 0], [0, 0, 0, 0], [0, 0, 0, 0]] 3 19 =
        Board.create 10 20 :=
  addTetromino_clearTetromino (Board.create 10 20) (by decide) _ 3 19 (by decide) (by decide)

/-! ## Rotation -/

theorem list_length_four {α : Type} (l : List α) (h : l.length = 4) :
    ∃ a b c d, l = [a, b, c, d] := by
  match l, h with
  | [a, b, c, d], _ => exact ⟨a, b, c, d, rfl⟩

theorem Is4x4.exists_cells {s : List (List Int)} (h : Is4x4 s) :
    ∃ a b c d e f g h i j k l m n o p : Int,
      s = [[a, b, c, d], [e, f, g, h], [i, j, k, l], [m, n, o, p]] := by
  obtain ⟨hlen, hrows⟩ := h
  obtain ⟨r0, r1, r2, r3, rfl⟩ := list_length_four s hlen
  obtain ⟨a, b, c, d, rfl⟩ := list_length_four r0 (hrows _ (by simp))
  obtain ⟨e, f, g, h, rfl⟩ := list_length_four r1 (hrows _ (by simp))
  obtain ⟨i, j, k, l, rfl⟩ := list_length_four r2 (hrows _ (by simp))
  obtain ⟨m, n, o, p, rfl⟩ := list_length_four r3 (hrows _ (by simp))
  exact ⟨a, b, c, d, e, f, g, h, i, j, k, l, m, n, o, p, rfl⟩

theorem rotatedRight_cells (a b c d e f g h i j k l m n o p : Int) :
    rotatedRight [[a, b, c, d], [e, f, g, h], [i, j, k, l], [m, n, o, p]] =
      [[m, i, e, a], [n, j, f, b], [o, k, g, c], [p, l, h, d]] := by
  simp [rotatedRight, List.range, List.range.loop, setCell, cellAt]

theorem rotatedLeft_cells (a b c d e f g h i j k l m n o p : Int) :
    rotatedLeft [[a, b, c, d], [e, f, g, h], [i, j, k, l], [m, n, o, p]] =
      [[d, h, l, p], [c, g, k, o], [b, f, j, n], [a, e, i, m]] := by
  simp [rotatedLeft, List.range, List.range.loop, setCell, cellAt]

/-- C5. For every 4x4 shape `s`, the clockwise rotation computed by
`Tetromino::rotateRight` (`rotated[j][3-i] = s[i][j]`), applied four times in succession,
yields `s` again. -/
theorem rotatedRight_four_times (s : List (List Int)) (hs : Is4x4 s) :
    rotatedRight (rotatedRight (rotatedRight (rotatedRight s))) = s := by
  obtain ⟨a, b, c, d, e, f, g, h, i, j, k, l, m, n, o, p, rfl⟩ := hs.exists_cells
  rw [rotatedRight_cells, rotatedRight_cells, rotatedRight_cells, rotatedRight_cells]

/-- C5, at a concrete input: the T-shape of the catalog. -/
theorem rotatedRight_four_times_witness :
    rotatedRight (rotatedRight (rotatedRight (rotatedRight
      [[1, 1, 1, 0], [0, 1, 0, 0], [0, 0, 0, 0], [0, 0, 0, 0]]))) =
      [[1, 1, 1, 0], [0, 1, 0, 0], [0, 0, 0, 0], [0, 0, 0, 0]] :=
  rotatedRight_four_times _ (by decide)

theorem rotatedRight_spec (s : List (List Int)) (hs : Is4x4 s) :
    Is4x4 (rotatedRight s) ∧
      ∀ i j : Nat, i < 4 → j < 4 →
        cellAt (rotatedRight s) (j : Int) (3 - (i : Int)) = cellAt s (i : Int) (j : Int) := by
  obtain ⟨a, b, c, d, e, f, g, h, i, j, k, l, m, n, o, p, rfl⟩ := hs.exists_cells
  rw [rotatedRight_cells]
  refine ⟨⟨rfl, by simp⟩, ?_⟩
  intro i j hi hj
  interval_cases i <;> interval_cases j <;> simp [cellAt]

theorem rotatedLeft_spec (s : List (List Int)) (hs : Is4x4 s) :
    Is4x4 (rotatedLeft s) ∧
      ∀ i j : Nat, i < 4 → j < 4 →
        cellAt (rotatedLeft s) (3 - (j : Int)) (i : Int) = cellAt s (i : Int) (j : Int) := by
  obtain ⟨a, b, c, d, e, f, g, h, i, j, k, l, m, n, o, p, rfl⟩ := hs.exists_cells
  rw [rotatedLeft_cells]
  refine ⟨⟨rfl, by simp⟩, ?_⟩
  intro i j hi hj
  interval_cases i <;> interval_cases j <;> simp [cellAt]

/-! ## The four transform operations -/

/-- C6. Validate-or-discard: on every board, 4x4 shape and anchor `(x, y)` of `int`
values, each of the four transform statements of `main` commits its candidate exactly
when `canPlaceTetromino` accepts the candidate, and otherwise leaves `board`, `shape`, `x`
and `y` as they were. The candidates are the shape `r` with `r[j][3-i] = shape[i][j]` at
`(x, y)` (rotate right), the shape `l` with `l[3-j][i] = shape[i][j]` at `(x, y)` (rotate
left), the same shape at `(x-1, y)` (shift left) and at `(x+1, y)` (shift right);
committing changes the shape only (rotations) or `x` only (shifts), never `y` or the
board, and no other anchor is tried. The statements on the shifts are made where the
candidate `x - 1`, respectively `x + 1`, is representable in `int` (the source computes
it in `int`); the committed `x` is then representable too. -/
theorem validate_or_discard (g : Game) (hs : Is4x4 g.shape) (hx : isInt32 g.x)
    (hy : isInt32 g.y) :
    (g.keyRotateRight true =
      if g.board.canPlaceTetromino (rotatedRight g.shape) g.x g.y = true then
        { g with shape := rotatedRight g.shape }
      else g) ∧
    (g.keyRotateLeft true =
      if g.board.canPlaceTetromino (rotatedLeft g.shape) g.x g.y = true then
        { g with shape := rotatedLeft g.shape }
      else g) ∧
    (isInt32 (g.x - 1) →
      g.keyShiftLeft true =
        (if g.board.canPlaceTetromino g.shape (g.x - 1) g.y = true then
          { g with x := g.x - 1 }
        else g) ∧
      isInt32 (g.keyShiftLeft true).x) ∧
    (isInt32 (g.x + 1) →
      g.keyShiftRight true =
        (if g.board.canPlaceTetromino g.shape (g.x + 1) g.y = true then
          { g with x := g.x + 1 }
        else g) ∧
      isInt32 (g.keyShiftRight true).x) ∧
    (g.keyRotateRight true).y = g.y ∧ (g.keyRotateLeft true).y = g.y ∧
    (g.keyShiftLeft true).y = g.y ∧ (g.keyShiftRight true).y = g.y ∧
    isInt32 (g.keyRotateRight true).x ∧ isInt32 (g.keyRotateLeft true).x ∧
    isInt32 (g.keyRotateRight true).y ∧
    (Is4x4 (rotatedRight g.shape) ∧
      ∀ i j : Nat, i < 4 → j < 4 →
        cellAt (rotatedRight g.shape) (j : Int) (3 - (i : Int)) =
          cellAt g.shape (i : Int) (j : Int)) ∧
    (Is4x4 (rotatedLeft g.shape) ∧
      ∀ i j : Nat, i < 4 → j < 4 →
        cellAt (rotatedLeft g.shape) (3 - (j : Int)) (i : Int) =
          cellAt g.shape (i : Int) (j : Int)) := by
  have eRR : g.keyRotateRight true =
      if g.board.canPlaceTetromino (rotatedRight g.shape) g.x g.y = true then
        { g with shape := rotatedRight g.shape }
      else g := by
    simp only [Game.keyRotateRight, Tetromino.rotateRight, if_true]
    split <;> rfl
  have eRL : g.keyRotateLeft true =
      if g.board.canPlaceTetromino (rotatedLeft g.shape) g.x g.y = true then
        { g with shape := rotatedLeft g.shape }
      else g := by
    simp only [Game.keyRotateLeft, Tetromino.rotateLeft, if_true]
    split <;> rfl
  have eSL : g.keyShiftLeft true =
      if g.board.canPlaceTetromino g.shape (g.x - 1) g.y = true then
        { g with x := g.x - 1 }
      else g := by
    simp only [Game.keyShiftLeft, Tetromino.shiftLeft, if_true]
    split <;> rfl
  have eSR : g.keyShiftRight true =
      if g.board.canPlaceTetromino g.shape (g.x + 1) g.y = true then
        { g with x := g.x + 1 }
      else g := by
    simp only [Game.keyShiftRight, Tetromino.shiftRight, if_true]
    split <;> rfl
  refine ⟨eRR, eRL, ?_, ?_, ?_, ?_, ?_, ?_, ?_, ?_, ?_,
    rotatedRight_spec _ hs, rotatedLeft_spec _ hs⟩
  · intro h1
    refine ⟨eSL, ?_⟩
    rw [eSL]
    split
    · exact h1
    · exact hx
  · intro h1
    refine ⟨eSR, ?_⟩
    rw [eSR]
    split
    · exact h1
    · exact hx
  · rw [eRR]; split <;> rfl
  · rw [eRL]; split <;> rfl
  · rw [eSL]; split <;> rfl
  · rw [eSR]; split <;> rfl
  · rw [eRR]; split <;> exact hx
  · rw [eRL]; split <;> exact hx
  · rw [eRR]; split <;> exact hy

/-- C6, at a concrete input: the line piece at the spawn anchor of the empty 10x20 board;
its shift to the right is accepted and committed. -/
theorem validate_or_discard_witness :
    Game.keyShiftRight true
        { board := Board.create 10 20, shape := lineShape, x := 3, y := 0 } =
      (if (Board.create 10 20).canPlaceTetromino lineShape (3 + 1) 0 = true then
        { board := Board.create 10 20, shape := lineShape, x := 3 + 1, y := 0 }
      else { board := Board.create 10 20, shape := lineShape, x := 3, y := 0 }) ∧
    isInt32 (Game.keyShiftRight true
        { board := Board.create 10 20, shape := lineShape, x := 3, y := 0 }).x :=
  (validate_or_discard
    { board := Board.create 10 20, shape := lineShape, x := 3, y := 0 }
    (by decide) (by decide) (by decide)).2.2.2.1 (by decide)

/-! ## `dropTetromino` -/

/-- C7. Gravity-or-lock: when the shape `s` at the anchor `(x, y)` of `int` values lies
inside the rectangular board `b`, `y + 1` is representable in `int` (the source computes
it in `int`), and `b0` is `b` with the footprint of `s` at `(x, y)` emptied
(`clearTetromino`), `dropTetromino` returns a flag that is true exactly when
`canPlaceTetromino(s, x, y+1)` holds on `b0`; `x` is unchanged, `y` is increased by
exactly 1 when the flag is true and unchanged when it is false, and the resulting grid is
`b0` with `s` stamped at the new `(x, y)`: same dimensions, `1` on the new footprint, `0`
on the rest of the old footprint, and the cells of `b` everywhere else. -/
theorem dropTetromino_gravity_or_lock (b : Board) (hb : b.Rect) (s : List (List Int))
    (x y : Int) (hin : b.inside s x y) (hx : isInt32 x) (hy : isInt32 y)
    (hy1 : isInt32 (y + 1)) :
    ∃ (flag : Bool) (y1 : Int) (b1 : Board),
      b.dropTetromino s x y = some (flag, x, y1, b1) ∧
      (flag = true ↔ (b.clearTetromino s x y).canPlaceTetromino s x (y + 1) = true) ∧
      y1 = (if flag = true then y + 1 else y) ∧
      isInt32 x ∧ isInt32 y1 ∧
      (b.clearTetromino s x y).addTetromino s x y1 = some b1 ∧
      b1.width = b.width ∧ b1.height = b.height ∧ b1.Rect ∧
      (∀ r c, covers s x y1 r c → cellAt b1.grid r c = 1) ∧
      (∀ r c, ¬ covers s x y1 r c → covers s x y r c → cellAt b1.grid r c = 0) ∧
      (∀ r c, ¬ covers s x y1 r c → ¬ covers s x y r c →
        cellAt b1.grid r c = cellAt b.grid r c) := by
  obtain ⟨l0, p0, q0⟩ := clearTetromino_spec b hb s x y
  have hb0 : (b.clearTetromino s x y).Rect := hb.of_lens _ l0
  have main : ∀ (flag : Bool) (y1 : Int),
      (∀ r c, covers s x y1 r c → c ≥ 0 ∧ c < b.width ∧ r ≥ 0 ∧ r < b.height) →
      ∃ b1 : Board, (b.clearTetromino s x y).addTetromino s x y1 = some b1 ∧
        b1.width = b.width ∧ b1.height = b.height ∧ b1.Rect ∧
        (∀ r c, covers s x y1 r c → cellAt b1.grid r c = 1) ∧
        (∀ r c, ¬ covers s x y1 r c → covers s x y r c → cellAt b1.grid r c = 0) ∧
        (∀ r c, ¬ covers s x y1 r c → ¬ covers s x y r c →
          cellAt b1.grid r c = cellAt b.grid r c) := by
    intro flag y1 hin1
    obtain ⟨g1, e1, l1, p1, q1⟩ := addTetromino_spec _ hb0 s x y1 hin1
    refine ⟨_, e1, rfl, rfl, hb0.of_lens g1 l1, p1, ?_, ?_⟩
    · intro r c hn ho
      show cellAt g1 r c = 0
      rw [q1 r c hn]; exact p0 r c ho
    · intro r c hn ho
      show cellAt g1 r c = cellAt b.grid r c
      rw [q1 r c hn]; exact q0 r c ho
  by_cases hcan : (b.clearTetromino s x y).canPlaceTetromino s x (y + 1) = true
  · have hin1 : ∀ r c, covers s x (y + 1) r c → c ≥ 0 ∧ c < b.width ∧ r ≥ 0 ∧ r < b.height := by
      rintro r c ⟨i, j, hf, rfl, rfl⟩
      obtain ⟨h1, h2, h3, h4, -⟩ := (canPlaceTetromino_iff_free _ s x (y + 1)).1 hcan i j hf
      exact ⟨h1, h2, h3, h4⟩
    obtain ⟨b1, e1, rest⟩ := main true (y + 1) hin1
    refine ⟨true, y + 1, b1, ?_, by simp [hcan], by simp, hx, hy1, e1, rest⟩
    unfold Board.dropTetromino
    simp only [hcan, if_true, e1]
  · obtain ⟨b1, e1, rest⟩ := main false y (inside_covers hin)
    refine ⟨false, y, b1, ?_, by simp [hcan], by simp, hx, hy, e1, rest⟩
    unfold Board.dropTetromino
    simp only [hcan, e1]
    simp

/-- C7, at a concrete input: the line piece resting on the floor of the empty 10x20
board, where gravity fails and the piece is stamped where it is. -/
theorem dropTetromino_gravity_or_lock_witness :
    ∃ (flag : Bool) (y1 : Int) (b1 : Board),
      (Board.create 10 20).dropTetromino lineShape 3 19 = some (flag, 3, y1, b1) ∧
      (flag = true ↔
        ((Board.create 10 20).clearTetromino lineShape 3 19).canPlaceTetromino
          lineShape 3 (19 + 1) = true) ∧
      y1 = (if flag = true then 19 + 1 else 19) :=
  let ⟨flag, y1, b1, h1, h2, h3, _⟩ :=
    dropTetromino_gravity_or_lock (Board.create 10 20) (by decide)
      lineShape 3 19 (by decide) (by decide) (by decide) (by decide)
  ⟨flag, y1, b1, h1, h2, h3⟩

/-! ## The loops of `main` -/

theorem tick_mono_le (fuel fuel1 : Nat) (hle : fuel ≤ fuel1) (keys : Keys) (g : Game)
    (r : Bool × Game) (h : tick fuel keys g = some r) : tick fuel1 keys g = some r := by
  unfold tick at h ⊢
  simp only at h ⊢
  cases hd : (g.inputPhase keys).board.dropTetromino (g.inputPhase keys).shape
      (g.inputPhase keys).x (g.inputPhase keys).y with
  | none => rw [hd] at h; simp at h
  | some res =>
    obtain ⟨flag, x, y, board⟩ := res
    rw [hd] at h
    cases flag with
    | false => simpa using h
    | true =>
      simp only at h ⊢
      cases hc : board.clearFullLines fuel with
      | none => rw [hc] at h; simp at h
      | some b1 =>
        rw [hc] at h
        rw [clearFullLines_mono_le fuel fuel1 hle board b1 hc]
        exact h

theorem runTicks_mono_le (fuel fuel1 : Nat) (hle : fuel ≤ fuel1) (keys : List Keys) :
    ∀ (g : Game) (r : Bool × Game), runTicks fuel keys g = some r →
      runTicks fuel1 keys g = some r := by
  induction keys with
  | nil => intro g r h; exact h
  | cons k ks ih =>
    intro g r h
    unfold runTicks at h ⊢
    cases ht : tick fuel k g with
    | none => rw [ht] at h; simp at h
    | some res =>
      obtain ⟨flag, g1⟩ := res
      rw [ht] at h
      rw [tick_mono_le fuel fuel1 hle k g _ ht]
      cases flag with
      | false => exact h
      | true => exact ih g1 r h

theorem line_drop_fuel_20 :
    (∀ n : Nat, n ≤ 19 → 1 ≤ n →
      runTicks 20 (List.replicate n Keys.none)
          { board := Board.create 10 20, shape := lineShape, x := 3, y := 0 } =
        some (true, { board := lineBoardAt n, shape := lineShape, x := 3, y := (n : Int) })) ∧
    runTicks 20 (List.replicate 20 Keys.none)
        { board := Board.create 10 20, shape := lineShape, x := 3, y := 0 } =
      some (false, { board := lineBoardAt 19, shape := lineShape, x := 3, y := 19 }) := by
  decide!

/-- C10. End-to-end line drop: on the empty 10x20 board the spawn test
`canPlaceTetromino(shapes[0], 3, 0)` is true for the line piece; with no key pressed, the
ticks of the game loop give 19 consecutive ticks after which the piece is still falling,
with `y = 1, 2, ..., 19` and `x = 3`, and then a 20th tick in which it locks at `y = 19`,
`x = 3`; the grid then holds `1` exactly in the cells of row 19, columns 3 to 6, and `0`
everywhere else. (`fuel` bounds the loop of `clearFullLines`; 20 executions suffice.) -/
theorem line_drop_end_to_end (fuel : Nat) (hf : 20 ≤ fuel) :
    Tetromino.getShape 0 = some lineShape ∧
    (Board.create 10 20).canPlaceTetromino lineShape 3 0 = true ∧
    spawn (Board.create 10 20) lineShape =
      some { board := Board.create 10 20, shape := lineShape, x := 3, y := 0 } ∧
    (∀ n : Nat, n ≤ 19 → 1 ≤ n →
      runTicks fuel (List.replicate n Keys.none)
          { board := Board.create 10 20, shape := lineShape, x := 3, y := 0 } =
        some (true, { board := lineBoardAt n, shape := lineShape, x := 3, y := (n : Int) })) ∧
    runTicks fuel (List.replicate 20 Keys.none)
        { board := Board.create 10 20, shape := lineShape, x := 3, y := 0 } =
      some (false, { board := lineBoardAt 19, shape := lineShape, x := 3, y := 19 }) ∧
    (lineBoardAt 19).grid =
      List.replicate 19 [0, 0, 0, 0, 0, 0, 0, 0, 0, 0] ++ [[0, 0, 0, 1, 1, 1, 1, 0, 0, 0]] := by
  refine ⟨by decide, by decide, by decide, ?_, ?_, by decide⟩
  · intro n h1 h2
    exact runTicks_mono_le 20 fuel hf _ _ _ (line_drop_fuel_20.1 n h1 h2)
  · exact runTicks_mono_le 20 fuel hf _ _ _ line_drop_fuel_20.2

/-- C10, at a concrete input: the bound 20 on the loop of `clearFullLines`. -/
theorem line_drop_end_to_end_witness :
    runTicks 20 (List.replicate 20 Keys.none)
        { board := Board.create 10 20, shape := lineShape, x := 3, y := 0 } =
      some (false, { board := lineBoardAt 19, shape := lineShape, x := 3, y := 19 }) :=
  (line_drop_end_to_end 20 (by decide)).2.2.2.2.1

/-- C8 fails on the code. From the spawn of the line piece on `wellBoard`, 16 ticks (`D`
in the first) bring the piece upright into the well, still falling; in the 17th tick `A`
lays it into row 16, gravity fails and the piece locks. The tick ends there: the board
handed to the next spawn test holds a completely filled row 16 (`clearFullLines` was not
applied; applied, it would remove that row). -/
theorem lock_leaves_full_row :
    wellBoard.WellFormed ∧
    spawn wellBoard lineShape =
      some { board := wellBoard, shape := lineShape, x := 3, y := 0 } ∧
    runTicks 40 (wellKeys.take 16) { board := wellBoard, shape := lineShape, x := 3, y := 0 } =
      some (true, { board := wellBoardUpright, shape := lineShapeUpright, x := 3, y := 16 }) ∧
    tick 40 { d := false, a := true, left := false, right := false }
        { board := wellBoardUpright, shape := lineShapeUpright, x := 3, y := 16 } =
      some (false, { board := wellBoardLocked, shape := lineShape, x := 3, y := 16 }) ∧
    runTicks 40 wellKeys { board := wellBoard, shape := lineShape, x := 3, y := 0 } =
      some (false, { board := wellBoardLocked, shape := lineShape, x := 3, y := 16 }) ∧
    wellBoardLocked.grid[16]? = some [1, 1, 1, 1, 1, 1, 1, 1, 1, 1] ∧
    fullCount wellBoardLocked.grid = 1 ∧
    wellBoardLocked.clearFullLines 40 ≠ some wellBoardLocked := by
  decide!

/-- C9 fails on the code. On `gapBoard` (row 19 filled except column 4) the T piece falls
from its spawn with no key pressed; the 18th tick brings it to `(3, 18)`, where its lower
cell fills the gap, and `clearFullLines` removes row 19 with the piece still in flight; the
19th tick locks the piece at `(3, 18)` and stamps it again. The board handed to the next
spawn has the cells of columns 3 to 5 filled in both rows 18 and 19, whereas
`clearFullLines` applied to `gapBoard` with the piece stamped at `(3, 18)` has them in row
19 only. -/
theorem line_clear_tears_piece :
    gapBoard.WellFormed ∧
    spawn gapBoard teeShape = some { board := gapBoard, shape := teeShape, x := 3, y := 0 } ∧
    runTicks 40 (List.replicate 18 Keys.none)
        { board := gapBoard, shape := teeShape, x := 3, y := 0 } =
      some (true,
        { board := { width := 10, height := 20,
                     grid := List.replicate 19 emptyRow ++ [[0, 0, 0, 1, 1, 1, 0, 0, 0, 0]] },
          shape := teeShape, x := 3, y := 18 }) ∧
    runTicks 40 (List.replicate 19 Keys.none)
        { board := gapBoard, shape := teeShape, x := 3, y := 0 } =
      some (false,
        { board := { width := 10, height := 20,
                     grid := List.replicate 18 emptyRow ++
                       [[0, 0, 0, 1, 1, 1, 0, 0, 0, 0], [0, 0, 0, 1, 1, 1, 0, 0, 0, 0]] },
          shape := teeShape, x := 3, y := 18 }) ∧
    (gapBoard.addTetromino teeShape 3 18).bind (Board.clearFullLines 40) =
      some { width := 10, height := 20,
             grid := List.replicate 19 emptyRow ++ [[0, 0, 0, 1, 1, 1, 0, 0, 0, 0]] } := by
  decide!

/-! ## The spawn test -/

theorem rowFull_getD {row : List Int} (h : rowFull row = true) (c : Nat) (hc : c < row.length) :
    row.getD c 0 = 1 := by
  unfold rowFull at h
  rw [List.all_eq_true] at h
  rw [List.getD_eq_getElem _ _ hc]
  simpa using h _ (List.getElem_mem hc)

theorem cellAt_top_row_full {b : Board} (hb : b.Rect) (row0 : List Int)
    (hrow : b.grid[0]? = some row0) (hfull : rowFull row0 = true) (c : Nat)
    (hc : (c : Int) < b.width) : cellAt b.grid 0 (c : Int) = 1 := by
  have hmem : row0 ∈ b.grid := List.mem_iff_getElem?.2 ⟨0, hrow⟩
  have hlen := hb.2 row0 hmem
  unfold cellAt
  rw [if_pos ⟨le_refl _, by omega⟩]
  simp only [Int.toNat_zero, Int.toNat_ofNat, List.getD_eq_getElem?_getD, hrow, Option.getD_some]
  rw [← List.getD_eq_getElem?_getD]
  exact rowFull_getD hfull c (by omega)

theorem catalog_top_cell (shape : List (List Int)) (hs : shape ∈ Tetromino.shapes) :
    ∃ j : Nat, j ≤ 3 ∧ shapeFilled shape 0 j := by
  simp only [Tetromino.shapes, List.mem_cons, List.mem_singleton, List.not_mem_nil,
    or_false] at hs
  rcases hs with rfl | rfl | rfl | rfl | rfl | rfl | rfl
  · exact ⟨0, by decide, by decide⟩
  · exact ⟨1, by decide, by decide⟩
  · exact ⟨0, by decide, by decide⟩
  · exact ⟨1, by decide, by decide⟩
  · exact ⟨2, by decide, by decide⟩
  · exact ⟨0, by decide, by decide⟩
  · exact ⟨0, by decide, by decide⟩

/-- C11. Spawn failure ends the session: on every board of width 10 (of height 20 or any
other) whose row 0 is completely filled, `canPlaceTetromino(shape, 3, 0)` is false for each of the seven catalog shapes, so
the spawn test fails and the outer loop of `main` is left there: no tick is executed and
the board is the one the loop was entered with, whatever the key states and the pieces
that would follow. -/
theorem spawn_fails_on_full_top_row (b : Board) (hb : b.Rect) (hw : b.width = 10)
    (row0 : List Int) (hrow : b.grid[0]? = some row0)
    (hfull : rowFull row0 = true) (shape : List (List Int))
    (hs : shape ∈ Tetromino.shapes) :
    b.canPlaceTetromino shape 3 0 = false ∧
    spawn b shape = none ∧
    ∀ (fuel : Nat) (index : Int) (keys : List Keys) (rest : List (Int × List Keys)),
      Tetromino.getShape index = some shape →
        session fuel ((index, keys) :: rest) b = some { over := true, ticks := 0, board := b } := by
  have hcan : b.canPlaceTetromino shape 3 0 = false := by
    obtain ⟨j, hj, hf⟩ := catalog_top_cell shape hs
    cases hres : b.canPlaceTetromino shape 3 0 with
    | false => rfl
    | true =>
      exfalso
      obtain ⟨-, -, -, -, hne⟩ := (canPlaceTetromino_iff_free b shape 3 0).1 hres 0 j hf
      have h1 := cellAt_top_row_full hb row0 hrow hfull (3 + j) (by rw [hw]; omega)
      apply hne
      have e : (0 : Int) + ((0 : Nat) : Int) = 0 := by simp
      have e2 : (3 : Int) + (j : Int) = ((3 + j : Nat) : Int) := by simp
      rw [e, e2]
      exact h1
  have hsp : spawn b shape = none := by
    unfold spawn
    rw [hcan]
    rfl
  refine ⟨hcan, hsp, ?_⟩
  intro fuel index keys rest hidx
  unfold session
  simp only [hidx, hsp]

/-- C11, at a concrete input: the 10x20 board whose row 0 alone is filled, and the line
piece. -/
theorem spawn_fails_on_full_top_row_witness :
    Board.canPlaceTetromino
        { width := 10, height := 20,
          grid := [1, 1, 1, 1, 1, 1, 1, 1, 1, 1] :: List.replicate 19 emptyRow }
        lineShape 3 0 = false ∧
    spawn { width := 10, height := 20,
            grid := [1, 1, 1, 1, 1, 1, 1, 1, 1, 1] :: List.replicate 19 emptyRow }
        lineShape = none :=
  have h := spawn_fails_on_full_top_row
    { width := 10, height := 20,
      grid := [1, 1, 1, 1, 1, 1, 1, 1, 1, 1] :: List.replicate 19 emptyRow }
    (by decide) rfl [1, 1, 1, 1, 1, 1, 1, 1, 1, 1] rfl (by decide) lineShape (by decide)
  ⟨h.1, h.2.1⟩

/-! ## Preservation of the board invariant -/

theorem clearFullLines_result (b : Board) (hb : b.Rect) (hw : 0 < b.width) (fuel : Nat)
    (b1 : Board) (h : b.clearFullLines fuel = some b1) :
    b1 = { b with grid :=
      List.replicate (fullCount b.grid) (List.replicate b.width.toNat (0 : Int)) ++
        b.grid.filter (fun row => !rowFull row) } := by
  have h1 := clearFullLines_mono_le fuel (fuel + (b.grid.length + fullCount b.grid))
    (by omega) b b1 h
  rw [clearFullLines_spec b hb hw _ (by omega)] at h1
  exact (Option.some.inj h1).symm

theorem fullCount_le_length (g : List (List Int)) : fullCount g ≤ g.length :=
  List.countP_le_length _

theorem compacted_rect (b : Board) (hb : b.Rect) (hw : 0 < b.width) :
    Board.Rect
      { b with grid :=
          List.replicate (fullCount b.grid) (List.replicate b.width.toNat (0 : Int)) ++
            b.grid.filter (fun row => !rowFull row) } := by
  obtain ⟨h1, h2⟩ := hb
  constructor
  · show ((List.replicate (fullCount b.grid) (List.replicate b.width.toNat (0 : Int)) ++
        b.grid.filter (fun row => !rowFull row)).length : Int) = b.height
    rw [← h1, List.length_append, List.length_replicate, ← List.countP_eq_length_filter]
    have := List.length_eq_countP_add_countP (p := rowFull) b.grid
    have e : List.countP (fun a => decide ¬rowFull a = true) b.grid =
        List.countP (fun row => !rowFull row) b.grid := by
      congr 1; funext a; cases rowFull a <;> rfl
    rw [e] at this
    unfold fullCount
    omega
  · intro row hrow
    have hrow : row ∈ List.replicate (fullCount b.grid) (List.replicate b.width.toNat (0 : Int)) ++
        b.grid.filter (fun row => !rowFull row) := hrow
    simp only [List.mem_append, List.mem_replicate, List.mem_filter] at hrow
    show (row.length : Int) = b.width
    rcases hrow with ⟨-, rfl⟩ | ⟨hmem, -⟩
    · rw [List.length_replicate]; omega
    · exact h2 row hmem

theorem compacted_binary (b : Board) (hb : b.Binary) :
    Board.Binary
      { b with grid :=
          List.replicate (fullCount b.grid) (List.replicate b.width.toNat (0 : Int)) ++
            b.grid.filter (fun row => !rowFull row) } := by
  intro row hrow cell hcell
  have hrow : row ∈ List.replicate (fullCount b.grid) (List.replicate b.width.toNat (0 : Int)) ++
      b.grid.filter (fun row => !rowFull row) := hrow
  simp only [List.mem_append, List.mem_replicate, List.mem_filter] at hrow
  rcases hrow with ⟨-, rfl⟩ | ⟨hmem, -⟩
  · exact Or.inl (List.mem_replicate.1 hcell).2
  · exact hb row hmem cell hcell

theorem binary_of_cellAt (b : Board)
    (h : ∀ r c : Int, inRange b.grid r c → cellAt b.grid r c = 0 ∨ cellAt b.grid r c = 1) :
    b.Binary := by
  intro row hrow cell hcell
  obtain ⟨n, hn, rfl⟩ := List.getElem_of_mem hrow
  obtain ⟨m, hm, rfl⟩ := List.getElem_of_mem hcell
  have e : b.grid.getD n [] = b.grid[n] := List.getD_eq_getElem _ _ hn
  have hin : inRange b.grid (n : Int) (m : Int) := by
    refine ⟨by omega, by omega, by omega, ?_⟩
    simp only [Int.toNat_ofNat]
    rw [e]; omega
  have := h n m hin
  unfold cellAt at this
  simp only [Int.toNat_ofNat] at this
  rw [if_pos ⟨by omega, by omega⟩, e, List.getD_eq_getElem _ _ hm] at this
  exact this

theorem clearTetromino_rect (b : Board) (hb : b.Rect) (s : List (List Int)) (x y : Int) :
    (b.clearTetromino s x y).Rect :=
  hb.of_lens _ (clearTetromino_spec b hb s x y).1

theorem clearTetromino_binary (b : Board) (hb : b.WellFormed) (s : List (List Int))
    (x y : Int) : (b.clearTetromino s x y).Binary := by
  obtain ⟨-, p, q⟩ := clearTetromino_spec b hb.1 s x y
  apply binary_of_cellAt
  intro r c _
  by_cases hc : covers s x y r c
  · exact Or.inl (p r c hc)
  · rw [q r c hc]; exact hb.2.cellAt_cases r c

theorem canPlaceTetromino_inside {b : Board} {s : List (List Int)} {x y : Int}
    (h : b.canPlaceTetromino s x y = true) : b.inside s x y := by
  intro i j hf
  obtain ⟨h1, h2, h3, h4, -⟩ := (canPlaceTetromino_iff_free b s x y).1 h i j hf
  exact ⟨h1, h2, h3, h4⟩

theorem canPlaceTetromino_after_clear (b : Board) (hb : b.Rect) (s : List (List Int))
    (x y : Int) (hin : b.inside s x y) :
    (b.clearTetromino s x y).canPlaceTetromino s x y = true := by
  rw [canPlaceTetromino_iff_free]
  intro i j hf
  obtain ⟨h1, h2, h3, h4⟩ := hin i j hf
  refine ⟨h1, h2, h3, h4, ?_⟩
  rw [(clearTetromino_spec b hb s x y).2.1 _ _ ⟨i, j, hf, rfl, rfl⟩]
  decide

theorem dropTetromino_spec (b : Board) (hb : b.Rect) (s : List (List Int))
    (x y : Int) (hin : b.inside s x y) :
    ∃ (flag : Bool) (y1 : Int) (g1 : List (List Int)),
      b.dropTetromino s x y = some (flag, x, y1, { b with grid := g1 }) ∧
      (flag = true ↔ (b.clearTetromino s x y).canPlaceTetromino s x (y + 1) = true) ∧
      y1 = (if flag = true then y + 1 else y) ∧
      b.inside s x y1 ∧
      (b.clearTetromino s x y).addTetromino s x y1 = some { b with grid := g1 } ∧
      g1.map List.length = b.grid.map List.length ∧
      (∀ r c, covers s x y1 r c → cellAt g1 r c = 1) ∧
      (∀ r c, ¬ covers s x y1 r c → covers s x y r c → cellAt g1 r c = 0) ∧
      (∀ r c, ¬ covers s x y1 r c → ¬ covers s x y r c → cellAt g1 r c = cellAt b.grid r c) := by
  obtain ⟨l0, p0, q0⟩ := clearTetromino_spec b hb s x y
  have hb0 : (b.clearTetromino s x y).Rect := hb.of_lens _ l0
  have main : ∀ (y1 : Int), b.inside s x y1 →
      ∃ g1 : List (List Int),
        (b.clearTetromino s x y).addTetromino s x y1 = some { b with grid := g1 } ∧
        g1.map List.length = b.grid.map List.length ∧
        (∀ r c, covers s x y1 r c → cellAt g1 r c = 1) ∧
        (∀ r c, ¬ covers s x y1 r c → covers s x y r c → cellAt g1 r c = 0) ∧
        (∀ r c, ¬ covers s x y1 r c → ¬ covers s x y r c →
          cellAt g1 r c = cellAt b.grid r c) := by
    intro y1 hin1
    obtain ⟨g1, e1, l1, p1, q1⟩ := addTetromino_spec _ hb0 s x y1
      (inside_covers (b := b.clearTetromino s x y) hin1)
    refine ⟨g1, e1, l1.trans l0, p1, ?_, ?_⟩
    · intro r c hn ho
      rw [q1 r c hn]; exact p0 r c ho
    · intro r c hn ho
      rw [q1 r c hn]; exact q0 r c ho
  by_cases hcan : (b.clearTetromino s x y).canPlaceTetromino s x (y + 1) = true
  · have hin1 : b.inside s x (y + 1) :=
      canPlaceTetromino_inside (b := b.clearTetromino s x y) hcan
    obtain ⟨g1, e1, rest⟩ := main (y + 1) hin1
    refine ⟨true, y + 1, g1, ?_, by simp [hcan], by simp, hin1, e1, rest⟩
    unfold Board.dropTetromino
    simp only [hcan, if_true, e1]
  · obtain ⟨g1, e1, rest⟩ := main y hin
    refine ⟨false, y, g1, ?_, by simp [hcan], by simp, hin, e1, rest⟩
    unfold Board.dropTetromino
    simp only [hcan, e1]
    simp

/-! ## Invariants of the tick -/

theorem keyRotateRight_keeps (p : Bool) (g : Game)
    (h : g.board.canPlaceTetromino g.shape g.x g.y = true) :
    (g.keyRotateRight p).board = g.board ∧ (g.keyRotateRight p).x = g.x ∧
      (g.keyRotateRight p).y = g.y ∧
      (g.keyRotateRight p).board.canPlaceTetromino (g.keyRotateRight p).shape
        (g.keyRotateRight p).x (g.keyRotateRight p).y = true := by
  unfold Game.keyRotateRight Tetromino.rotateRight
  cases p with
  | false => exact ⟨rfl, rfl, rfl, h⟩
  | true =>
    simp only [if_true]
    by_cases hc : g.board.canPlaceTetromino (rotatedRight g.shape) g.x g.y = true
    · rw [if_pos hc]; exact ⟨trivial, trivial, trivial, hc⟩
    · rw [if_neg hc]; exact ⟨trivial, trivial, trivial, h⟩

theorem keyRotateLeft_keeps (p : Bool) (g : Game)
    (h : g.board.canPlaceTetromino g.shape g.x g.y = true) :
    (g.keyRotateLeft p).board = g.board ∧ (g.keyRotateLeft p).x = g.x ∧
      (g.keyRotateLeft p).y = g.y ∧
      (g.keyRotateLeft p).board.canPlaceTetromino (g.keyRotateLeft p).shape
        (g.keyRotateLeft p).x (g.keyRotateLeft p).y = true := by
  unfold Game.keyRotateLeft Tetromino.rotateLeft
  cases p with
  | false => exact ⟨rfl, rfl, rfl, h⟩
  | true =>
    simp only [if_true]
    by_cases hc : g.board.canPlaceTetromino (rotatedLeft g.shape) g.x g.y = true
    · rw [if_pos hc]; exact ⟨trivial, trivial, trivial, hc⟩
    · rw [if_neg hc]; exact ⟨trivial, trivial, trivial, h⟩

theorem keyShiftLeft_keeps (p : Bool) (g : Game)
    (h : g.board.canPlaceTetromino g.shape g.x g.y = true) :
    (g.keyShiftLeft p).board = g.board ∧ (g.keyShiftLeft p).shape = g.shape ∧
      (g.keyShiftLeft p).y = g.y ∧
      (g.keyShiftLeft p).board.canPlaceTetromino (g.keyShiftLeft p).shape
        (g.keyShiftLeft p).x (g.keyShiftLeft p).y = true := by
  unfold Game.keyShiftLeft Tetromino.shiftLeft
  cases p with
  | false => exact ⟨rfl, rfl, rfl, h⟩
  | true =>
    simp only [if_true]
    by_cases hc : g.board.canPlaceTetromino g.shape (g.x - 1) g.y = true
    · rw [if_pos hc]; exact ⟨trivial, trivial, trivial, hc⟩
    · rw [if_neg hc]; exact ⟨trivial, trivial, trivial, h⟩

theorem keyShiftRight_keeps (p : Bool) (g : Game)
    (h : g.board.canPlaceTetromino g.shape g.x g.y = true) :
    (g.keyShiftRight p).board = g.board ∧ (g.keyShiftRight p).shape = g.shape ∧
      (g.keyShiftRight p).y = g.y ∧
      (g.keyShiftRight p).board.canPlaceTetromino (g.keyShiftRight p).shape
        (g.keyShiftRight p).x (g.keyShiftRight p).y = true := by
  unfold Game.keyShiftRight Tetromino.shiftRight
  cases p with
  | false => exact ⟨rfl, rfl, rfl, h⟩
  | true =>
    simp only [if_true]
    by_cases hc : g.board.canPlaceTetromino g.shape (g.x + 1) g.y = true
    · rw [if_pos hc]; exact ⟨trivial, trivial, trivial, hc⟩
    · rw [if_neg hc]; exact ⟨trivial, trivial, trivial, h⟩

theorem inputPhase_spec (keys : Keys) (g : Game) (hb : g.board.Rect)
    (hin : g.board.inside g.shape g.x g.y) :
    (g.inputPhase keys).board = g.board.clearTetromino g.shape g.x g.y ∧
      (g.inputPhase keys).y = g.y ∧
      (g.inputPhase keys).board.canPlaceTetromino (g.inputPhase keys).shape
        (g.inputPhase keys).x (g.inputPhase keys).y = true := by
  have h0 := canPlaceTetromino_after_clear g.board hb g.shape g.x g.y hin
  have k1 := keyRotateRight_keeps keys.d
    { g with board := g.board.clearTetromino g.shape g.x g.y } h0
  have k2 := keyRotateLeft_keeps keys.a _ k1.2.2.2
  have k3 := keyShiftLeft_keeps keys.left _ k2.2.2.2
  have k4 := keyShiftRight_keeps keys.right _ k3.2.2.2
  unfold Game.inputPhase
  simp only
  refine ⟨?_, ?_, k4.2.2.2⟩
  · rw [k4.1, k3.1, k2.1, k1.1]
  · rw [k4.2.2.1, k3.2.2.1, k2.2.2.1, k1.2.2.1]

theorem tick_spec (fuel : Nat) (keys : Keys) (g : Game) (hb : g.board.Rect)
    (hin : g.board.inside g.shape g.x g.y) (hw : 0 < g.board.width)
    (flag : Bool) (g2 : Game) (h : tick fuel keys g = some (flag, g2)) :
    g2.board.Rect ∧ g2.board.width = g.board.width ∧ g2.board.height = g.board.height ∧
      g2.board.inside g2.shape g2.x g2.y ∧
      g2.y = (if flag = true then g.y + 1 else g.y) ∧
      g2.shape = (g.inputPhase keys).shape ∧ g2.x = (g.inputPhase keys).x := by
  obtain ⟨e1, e2, e3⟩ := inputPhase_spec keys g hb hin
  have hb1 : (g.inputPhase keys).board.Rect := by
    rw [e1]; exact clearTetromino_rect g.board hb _ _ _
  have hw1 : (g.inputPhase keys).board.width = g.board.width := by rw [e1]; rfl
  have hh1 : (g.inputPhase keys).board.height = g.board.height := by rw [e1]; rfl
  obtain ⟨fl, y1, g1, d1, -, d3, d4, -, d5, -⟩ := dropTetromino_spec _ hb1
    (g.inputPhase keys).shape (g.inputPhase keys).x (g.inputPhase keys).y
    (canPlaceTetromino_inside e3)
  have hbd : Board.Rect { (g.inputPhase keys).board with grid := g1 } := hb1.of_lens g1 d5
  unfold tick at h
  simp only [d1] at h
  cases fl with
  | true =>
    simp only at h
    cases hc : Board.clearFullLines fuel { (g.inputPhase keys).board with grid := g1 } with
    | none => rw [hc] at h; simp at h
    | some b3 =>
      rw [hc] at h
      simp only [Option.some.injEq, Prod.mk.injEq] at h
      obtain ⟨rfl, rfl⟩ := h
      have hres := clearFullLines_result _ hbd (by show 0 < (g.inputPhase keys).board.width; omega)
        fuel b3 hc
      subst hres
      refine ⟨compacted_rect _ hbd (by show 0 < (g.inputPhase keys).board.width; omega),
        hw1, hh1, ?_, ?_, rfl, rfl⟩
      · exact d4
      · simp only [if_true] at d3 ⊢
        rw [d3, e2]
  | false =>
    simp only [Option.some.injEq, Prod.mk.injEq] at h
    obtain ⟨rfl, rfl⟩ := h
    refine ⟨hbd, hw1, hh1, d4, ?_, rfl, rfl⟩
    simp only [Bool.false_eq_true, if_false] at d3 ⊢
    rw [d3, e2]

theorem tick_some (fuel : Nat) (keys : Keys) (g : Game) (hb : g.board.Rect)
    (hin : g.board.inside g.shape g.x g.y) (hw : 0 < g.board.width)
    (hf : 2 * g.board.grid.length ≤ fuel) : ∃ r, tick fuel keys g = some r := by
  obtain ⟨e1, e2, e3⟩ := inputPhase_spec keys g hb hin
  have hb1 : (g.inputPhase keys).board.Rect := by
    rw [e1]; exact clearTetromino_rect g.board hb _ _ _
  have hw1 : (g.inputPhase keys).board.width = g.board.width := by rw [e1]; rfl
  have hl1 : (g.inputPhase keys).board.grid.length = g.board.grid.length := by
    have := hb1.1
    have hh1 : (g.inputPhase keys).board.height = g.board.height := by rw [e1]; rfl
    have := hb.1
    omega
  obtain ⟨fl, y1, g1, d1, -, d3, d4, -, d5, -⟩ := dropTetromino_spec _ hb1
    (g.inputPhase keys).shape (g.inputPhase keys).x (g.inputPhase keys).y
    (canPlaceTetromino_inside e3)
  have hbd : Board.Rect { (g.inputPhase keys).board with grid := g1 } := hb1.of_lens g1 d5
  have hlen : g1.length = g.board.grid.length := by
    have := congrArg List.length d5
    simp only [List.length_map] at this
    omega
  unfold tick
  simp only [d1]
  cases fl with
  | true =>
    simp only
    rw [clearFullLines_spec _ hbd (by show 0 < (g.inputPhase keys).board.width; omega) fuel
      (by
        show g1.length + fullCount g1 ≤ fuel
        have := fullCount_le_length g1
        omega)]
    exact ⟨_, rfl⟩
  | false => exact ⟨_, rfl⟩

theorem spawn_eq_some {b : Board} {shape : List (List Int)} {g : Game}
    (h : spawn b shape = some g) :
    g = { board := b, shape := shape, x := 3, y := 0 } ∧
      b.canPlaceTetromino shape 3 0 = true := by
  unfold spawn at h
  by_cases hc : b.canPlaceTetromino shape 3 0 = true
  · rw [if_pos hc] at h
    exact ⟨(Option.some.inj h).symm, hc⟩
  · rw [if_neg hc] at h
    exact absurd h (by simp)

theorem Reachable.invariant {g : Game} (hr : Reachable g) :
    g.board.Rect ∧ g.board.width = 10 ∧ g.board.height = 20 ∧
      g.board.inside g.shape g.x g.y := by
  induction hr with
  | first shape g hs hg =>
    obtain ⟨rfl, hc⟩ := spawn_eq_some hg
    exact ⟨by show (Board.create 10 20).Rect; decide, rfl, rfl, canPlaceTetromino_inside hc⟩
  | fall fuel keys g g1 _ ht ih =>
    obtain ⟨hb, hw, hh, hin⟩ := ih
    obtain ⟨t1, t2, t3, t4, -⟩ := tick_spec fuel keys g hb hin (by omega) true g1 ht
    exact ⟨t1, by omega, by omega, t4⟩
  | next fuel keys g g1 g2 shape _ ht hs hg ih =>
    obtain ⟨hb, hw, hh, hin⟩ := ih
    obtain ⟨t1, t2, t3, -⟩ := tick_spec fuel keys g hb hin (by omega) false g1 ht
    obtain ⟨rfl, hc⟩ := spawn_eq_some hg
    exact ⟨t1, by show g1.board.width = 10; omega, by show g1.board.height = 20; omega,
      canPlaceTetromino_inside hc⟩

/-- C12. The active piece never leaves the board: in every state that the game loop
reaches from the empty 10x20 board (any catalog shapes, any key states), at the moment
gravity is attempted the board is a 10x20 grid and `canPlaceTetromino(shape, x, y)` holds
on it (the piece's footprint having been removed), also after the `clearTetromino` of
`dropTetromino`; `dropTetromino` therefore returns, its `addTetromino` call (at the anchor
`(x, y1)`, `y1` being `y + 1` or `y`) succeeds, i.e. no write is out of range, and every
cell it writes satisfies `0 <= x+j < 10` and `0 <= y1+i < 20`. -/
theorem piece_never_leaves_board (g : Game) (hr : Reachable g) (keys : Keys) :
    (g.inputPhase keys).board.Rect ∧
    (g.inputPhase keys).board.width = 10 ∧ (g.inputPhase keys).board.height = 20 ∧
    (g.inputPhase keys).board.canPlaceTetromino (g.inputPhase keys).shape
      (g.inputPhase keys).x (g.inputPhase keys).y = true ∧
    ((g.inputPhase keys).board.clearTetromino (g.inputPhase keys).shape
      (g.inputPhase keys).x (g.inputPhase keys).y).canPlaceTetromino (g.inputPhase keys).shape
      (g.inputPhase keys).x (g.inputPhase keys).y = true ∧
    ∃ (flag : Bool) (y1 : Int) (b1 : Board),
      (g.inputPhase keys).board.dropTetromino (g.inputPhase keys).shape
        (g.inputPhase keys).x (g.inputPhase keys).y = some (flag, (g.inputPhase keys).x, y1, b1) ∧
      (y1 = (g.inputPhase keys).y + 1 ∨ y1 = (g.inputPhase keys).y) ∧
      ((g.inputPhase keys).board.clearTetromino (g.inputPhase keys).shape
        (g.inputPhase keys).x (g.inputPhase keys).y).addTetromino (g.inputPhase keys).shape
        (g.inputPhase keys).x y1 = some b1 ∧
      ∀ i j : Nat, shapeFilled (g.inputPhase keys).shape i j →
        0 ≤ (g.inputPhase keys).x + (j : Int) ∧ (g.inputPhase keys).x + (j : Int) < 10 ∧
        0 ≤ y1 + (i : Int) ∧ y1 + (i : Int) < 20 := by
  obtain ⟨hb, hw, hh, hin⟩ := hr.invariant
  obtain ⟨e1, e2, e3⟩ := inputPhase_spec keys g hb hin
  have hb1 : (g.inputPhase keys).board.Rect := by
    rw [e1]; exact clearTetromino_rect g.board hb _ _ _
  have hw1 : (g.inputPhase keys).board.width = 10 := by rw [e1]; exact hw
  have hh1 : (g.inputPhase keys).board.height = 20 := by rw [e1]; exact hh
  have hin1 := canPlaceTetromino_inside e3
  obtain ⟨fl, y1, g1, d1, -, d3, d4, d5, -⟩ := dropTetromino_spec _ hb1
    (g.inputPhase keys).shape (g.inputPhase keys).x (g.inputPhase keys).y hin1
  refine ⟨hb1, hw1, hh1, e3, canPlaceTetromino_after_clear _ hb1 _ _ _ hin1,
    fl, y1, _, d1, ?_, d5, ?_⟩
  · cases fl with
    | true => left; simpa using d3
    | false => right; simpa using d3
  · intro i j hf
    have := d4 i j hf
    rw [hw1, hh1] at this
    exact this

/-- C12, at a concrete input: the line piece just spawned on the empty 10x20 board, no
key pressed. -/
theorem piece_never_leaves_board_witness :
    Reachable { board := Board.create 10 20, shape := lineShape, x := 3, y := 0 } ∧
    (Game.inputPhase Keys.none
      { board := Board.create 10 20, shape := lineShape, x := 3, y := 0 }).board.canPlaceTetromino
      (Game.inputPhase Keys.none
        { board := Board.create 10 20, shape := lineShape, x := 3, y := 0 }).shape
      (Game.inputPhase Keys.none
        { board := Board.create 10 20, shape := lineShape, x := 3, y := 0 }).x
      (Game.inputPhase Keys.none
        { board := Board.create 10 20, shape := lineShape, x := 3, y := 0 }).y = true :=
  have hr : Reachable { board := Board.create 10 20, shape := lineShape, x := 3, y := 0 } :=
    Reachable.first lineShape _ (by decide) (by decide)
  ⟨hr, (piece_never_leaves_board _ hr Keys.none).2.2.2.1⟩

/-- C13 fails on the code. Before the tick the board is `gapBoard` (the locked cells)
plus the T piece stamped at `(3, 17)` without overlap, as reached from the spawn by 17
ticks without key. The next tick returns true from `dropTetromino` (the piece falls to
`(3, 18)` and fills the gap of row 19) and then runs `clearFullLines`, which removes row
19 and shifts every row above it: removing the new footprint from the board after the tick
leaves the cells `(19, 3)` and `(19, 5)` filled and nothing else, which is not `gapBoard`. -/
theorem falling_tick_moves_locked_cells :
    gapBoard.canPlaceTetromino teeShape 3 17 = true ∧
    runTicks 40 (List.replicate 17 Keys.none)
        { board := gapBoard, shape := teeShape, x := 3, y := 0 } =
      (gapBoard.addTetromino teeShape 3 17).map
        (fun b => (true, { board := b, shape := teeShape, x := 3, y := 17 })) ∧
    (gapBoard.addTetromino teeShape 3 17).bind
        (fun b => tick 40 Keys.none { board := b, shape := teeShape, x := 3, y := 17 }) =
      some (true,
        { board := { width := 10, height := 20,
                     grid := List.replicate 19 emptyRow ++ [[0, 0, 0, 1, 1, 1, 0, 0, 0, 0]] },
          shape := teeShape, x := 3, y := 18 }) ∧
    Board.clearTetromino
        { width := 10, height := 20,
          grid := List.replicate 19 emptyRow ++ [[0, 0, 0, 1, 1, 1, 0, 0, 0, 0]] }
        teeShape 3 18 =
      { width := 10, height := 20,
        grid := List.replicate 19 emptyRow ++ [[0, 0, 0, 1, 0, 1, 0, 0, 0, 0]] } ∧
    ({ width := 10, height := 20,
       grid := List.replicate 19 emptyRow ++ [[0, 0, 0, 1, 0, 1, 0, 0, 0, 0]] } : Board) ≠
      gapBoard := by
  decide!

/-! ## Well-formedness of the grid -/

theorem addTetromino_wellFormed (b : Board) (hb : b.WellFormed) (s : List (List Int))
    (x y : Int) (hin : b.inside s x y) :
    ∃ b1, b.addTetromino s x y = some b1 ∧ b1.WellFormed ∧
      b1.width = b.width ∧ b1.height = b.height := by
  obtain ⟨g1, e1, l1, p1, q1⟩ := addTetromino_spec b hb.1 s x y (inside_covers hin)
  refine ⟨_, e1, ⟨hb.1.of_lens g1 l1, ?_⟩, rfl, rfl⟩
  apply binary_of_cellAt
  intro r c _
  show cellAt g1 r c = 0 ∨ cellAt g1 r c = 1
  by_cases hc : covers s x y r c
  · exact Or.inr (p1 r c hc)
  · rw [q1 r c hc]; exact hb.2.cellAt_cases r c

theorem dropTetromino_wellFormed (b : Board) (hb : b.WellFormed) (s : List (List Int))
    (x y : Int) (hin : b.inside s x y) :
    ∃ (flag : Bool) (y1 : Int) (b1 : Board),
      b.dropTetromino s x y = some (flag, x, y1, b1) ∧ b1.WellFormed ∧
      b1.width = b.width ∧ b1.height = b.height := by
  obtain ⟨fl, y1, g1, d1, -, -, -, -, d5, p, q, r⟩ := dropTetromino_spec b hb.1 s x y hin
  refine ⟨fl, y1, _, d1, ⟨hb.1.of_lens g1 d5, ?_⟩, rfl, rfl⟩
  apply binary_of_cellAt
  intro r1 c1 _
  show cellAt g1 r1 c1 = 0 ∨ cellAt g1 r1 c1 = 1
  by_cases hc : covers s x y1 r1 c1
  · exact Or.inr (p r1 c1 hc)
  · by_cases ho : covers s x y r1 c1
    · exact Or.inl (q r1 c1 hc ho)
    · rw [r r1 c1 hc ho]; exact hb.2.cellAt_cases r1 c1

/-- C14. Grid well-formedness is invariant: when the grid has exactly `height` rows of
exactly `width` cells, each `0` or `1`, it still has, with the same `width` and `height`,
after `clearTetromino` at any anchor, after `addTetromino` at an anchor accepted by
`canPlaceTetromino` (which then succeeds), after `clearFullLines` when `width > 0` (which
returns as soon as the loop body may run `height + k` times, `k` the number of full rows),
and after `dropTetromino` for a piece inside the board (which then succeeds).
`canPlaceTetromino` has no write at all; the statements of `main` that only call it (the
spawn test and the four transform operations) leave the board as it was. -/
theorem wellFormed_invariant (b : Board) (hb : b.WellFormed) :
    (∀ (s : List (List Int)) (x y : Int),
      (b.clearTetromino s x y).WellFormed ∧
      (b.clearTetromino s x y).width = b.width ∧ (b.clearTetromino s x y).height = b.height) ∧
    (∀ (s : List (List Int)) (x y : Int), b.canPlaceTetromino s x y = true →
      ∃ b1, b.addTetromino s x y = some b1 ∧ b1.WellFormed ∧
        b1.width = b.width ∧ b1.height = b.height) ∧
    (0 < b.width →
      (∀ (fuel : Nat) (b1 : Board), b.clearFullLines fuel = some b1 →
        b1.WellFormed ∧ b1.width = b.width ∧ b1.height = b.height) ∧
      (∀ fuel : Nat, b.grid.length + fullCount b.grid ≤ fuel →
        ∃ b1, b.clearFullLines fuel = some b1)) ∧
    (∀ (s : List (List Int)) (x y : Int), b.inside s x y →
      ∃ (flag : Bool) (y1 : Int) (b1 : Board),
        b.dropTetromino s x y = some (flag, x, y1, b1) ∧ b1.WellFormed ∧
        b1.width = b.width ∧ b1.height = b.height) ∧
    (∀ (s : List (List Int)) (g : Game), spawn b s = some g → g.board = b) ∧
    (∀ (g : Game) (p : Bool), g.board = b →
      (g.keyRotateRight p).board = b ∧ (g.keyRotateLeft p).board = b ∧
      (g.keyShiftLeft p).board = b ∧ (g.keyShiftRight p).board = b) := by
  refine ⟨?_, ?_, ?_, ?_, ?_, ?_⟩
  · intro s x y
    exact ⟨⟨clearTetromino_rect b hb.1 s x y, clearTetromino_binary b hb s x y⟩, rfl, rfl⟩
  · intro s x y hc
    exact addTetromino_wellFormed b hb s x y (canPlaceTetromino_inside hc)
  · intro hw
    constructor
    · intro fuel b1 h
      have e := clearFullLines_result b hb.1 hw fuel b1 h
      subst e
      exact ⟨⟨compacted_rect b hb.1 hw, compacted_binary b hb.2⟩, rfl, rfl⟩
    · intro fuel hf
      exact ⟨_, clearFullLines_spec b hb.1 hw fuel hf⟩
  · intro s x y hin
    exact dropTetromino_wellFormed b hb s x y hin
  · intro s g h
    rw [(spawn_eq_some h).1]
  · intro g p hg
    subst hg
    refine ⟨?_, ?_, ?_, ?_⟩
    · unfold Game.keyRotateRight; split <;> rfl
    · unfold Game.keyRotateLeft; split <;> rfl
    · unfold Game.keyShiftLeft; split <;> rfl
    · unfold Game.keyShiftRight; split <;> rfl

/-- C14, at a concrete input: `gapBoard` and the T piece at `(3, 17)`. -/
theorem wellFormed_invariant_witness :
    (gapBoard.clearTetromino teeShape 3 17).WellFormed ∧
    ∃ (flag : Bool) (y1 : Int) (b1 : Board),
      gapBoard.dropTetromino teeShape 3 17 = some (flag, 3, y1, b1) ∧ b1.WellFormed ∧
      b1.width = gapBoard.width ∧ b1.height = gapBoard.height :=
  have h := wellFormed_invariant gapBoard (by decide)
  ⟨(h.1 teeShape 3 17).1, h.2.2.2.1 teeShape 3 17 (by decide)⟩

/-- C15. On a well-formed board of positive width in which no row is completely filled,
`clearFullLines` leaves the board exactly as it was; `height` executions of the loop body
suffice, and no other result is possible. -/
theorem clearFullLines_noop (b : Board) (hb : b.WellFormed) (hw : 0 < b.width)
    (hnone : ∀ row ∈ b.grid, rowFull row = false) :
    (∀ fuel : Nat, b.grid.length ≤ fuel → b.clearFullLines fuel = some b) ∧
    (∀ (fuel : Nat) (b1 : Board), b.clearFullLines fuel = some b1 → b1 = b) := by
  have hfc : fullCount b.grid = 0 := by
    unfold fullCount
    rw [List.countP_eq_zero]
    intro row hrow
    rw [hnone row hrow]
    decide
  have hfil : b.grid.filter (fun row => !rowFull row) = b.grid := by
    rw [List.filter_eq_self]
    intro row hrow
    rw [hnone row hrow]
    rfl
  have hclosed :
      ({ b with
          grid :=
            List.replicate (fullCount b.grid) (List.replicate b.width.toNat (0 : Int)) ++
              b.grid.filter (fun row => !rowFull row) } : Board) = b := by
    rw [hfc, hfil]
    rfl
  constructor
  · intro fuel hf
    rw [clearFullLines_spec b hb.1 hw fuel (by omega), hclosed]
  · intro fuel b1 h
    rw [clearFullLines_result b hb.1 hw fuel b1 h, hclosed]

/-- C15, at a concrete input: `gapBoard`, whose row 19 misses one cell. -/
theorem clearFullLines_noop_witness :
    gapBoard.clearFullLines 20 = some gapBoard :=
  (clearFullLines_noop gapBoard (by decide) (by decide) (by decide)).1 20 (by decide)

/-! ## The piece catalog -/

/-- C16. The catalog built by the `Tetromino` constructor holds exactly 7 shapes,
`getShape(index)` being defined exactly for the indices 0 to 6; each shape is a 4x4 matrix
with entries `0` or `1` and exactly four filled cells, the seven matrices are pairwise
distinct, and each of them is accepted by `canPlaceTetromino` at the spawn anchor `(3, 0)`
of the empty 10x20 board. -/
theorem catalog_shapes :
    Tetromino.shapes.length = 7 ∧
    (∀ index : Int, (Tetromino.getShape index).isSome = true ↔ 0 ≤ index ∧ index ≤ 6) ∧
    (∀ s ∈ Tetromino.shapes, Is4x4 s ∧ shapeBinary s ∧ filledCount s = 4) ∧
    Tetromino.shapes.Nodup ∧
    (∀ s ∈ Tetromino.shapes, (Board.create 10 20).canPlaceTetromino s 3 0 = true) := by
  refine ⟨rfl, ?_, by decide, by decide, by decide⟩
  intro index
  unfold Tetromino.getShape
  by_cases h : 0 ≤ index
  · rw [if_pos h]
    have hlen : Tetromino.shapes.length = 7 := rfl
    constructor
    · intro hs
      refine ⟨h, ?_⟩
      by_contra hgt
      rw [List.getElem?_eq_none (by omega)] at hs
      exact absurd hs (by simp)
    · rintro ⟨-, h6⟩
      rw [List.getElem?_eq_getElem (by omega)]
      rfl
  · rw [if_neg h]
    constructor
    · intro hs; exact absurd hs (by simp)
    · rintro ⟨h0, -⟩; exact absurd h0 h

/-! ## The input phase of a tick -/

/-- C17 as stated fails: on the empty 10x20 board with the line piece at `(3, 0)`, when
the four keys are all pressed, `rotateRight` commits (the piece stands upright),
`rotateLeft` commits (it lies again), `shiftLeft` commits (`x = 2`) and `shiftRight`
commits (`x = 3`), all within the input phase of one tick. -/
theorem both_rotations_and_shifts_commit :
    Game.commitsRotateRight { d := true, a := true, left := true, right := true }
        { board := Board.create 10 20, shape := lineShape, x := 3, y := 0 } = true ∧
    Game.commitsRotateLeft { d := true, a := true, left := true, right := true }
        { board := Board.create 10 20, shape := lineShape, x := 3, y := 0 } = true ∧
    Game.commitsShiftLeft { d := true, a := true, left := true, right := true }
        { board := Board.create 10 20, shape := lineShape, x := 3, y := 0 } = true ∧
    Game.commitsShiftRight { d := true, a := true, left := true, right := true }
        { board := Board.create 10 20, shape := lineShape, x := 3, y := 0 } = true ∧
    Game.inputStates { d := true, a := true, left := true, right := true }
        { board := Board.create 10 20, shape := lineShape, x := 3, y := 0 } =
      ({ board := Board.create 10 20, shape := lineShape, x := 3, y := 0 },
       { board := Board.create 10 20, shape := lineShapeUpright, x := 3, y := 0 },
       { board := Board.create 10 20, shape := lineShape, x := 3, y := 0 },
       { board := Board.create 10 20, shape := lineShape, x := 2, y := 0 },
       { board := Board.create 10 20, shape := lineShape, x := 3, y := 0 }) := by
  decide!

theorem keyRotateRight_cases (p : Bool) (g : Game) :
    (g.keyRotateRight p).x = g.x ∧
      ((g.keyRotateRight p).shape = g.shape ∨
        (p = true ∧ (g.keyRotateRight p).shape = rotatedRight g.shape)) := by
  unfold Game.keyRotateRight Tetromino.rotateRight
  cases p with
  | false => exact ⟨rfl, Or.inl rfl⟩
  | true =>
    simp only [if_true]
    split <;> simp

theorem keyRotateLeft_cases (p : Bool) (g : Game) :
    (g.keyRotateLeft p).x = g.x ∧
      ((g.keyRotateLeft p).shape = g.shape ∨
        (p = true ∧ (g.keyRotateLeft p).shape = rotatedLeft g.shape)) := by
  unfold Game.keyRotateLeft Tetromino.rotateLeft
  cases p with
  | false => exact ⟨rfl, Or.inl rfl⟩
  | true =>
    simp only [if_true]
    split <;> simp

theorem keyShiftLeft_cases (p : Bool) (g : Game) :
    (g.keyShiftLeft p).shape = g.shape ∧
      ((g.keyShiftLeft p).x = g.x ∨ (p = true ∧ (g.keyShiftLeft p).x = g.x - 1)) := by
  unfold Game.keyShiftLeft Tetromino.shiftLeft
  cases p with
  | false => exact ⟨rfl, Or.inl rfl⟩
  | true =>
    simp only [if_true]
    split <;> simp

theorem keyShiftRight_cases (p : Bool) (g : Game) :
    (g.keyShiftRight p).shape = g.shape ∧
      ((g.keyShiftRight p).x = g.x ∨ (p = true ∧ (g.keyShiftRight p).x = g.x + 1)) := by
  unfold Game.keyShiftRight Tetromino.shiftRight
  cases p with
  | false => exact ⟨rfl, Or.inl rfl⟩
  | true =>
    simp only [if_true]
    split <;> simp

theorem rotatedLeft_rotatedRight (s : List (List Int)) (hs : Is4x4 s) :
    rotatedLeft (rotatedRight s) = s := by
  obtain ⟨a, b, c, d, e, f, g, h, i, j, k, l, m, n, o, p, rfl⟩ := hs.exists_cells
  rw [rotatedRight_cells, rotatedLeft_cells]

/-- C17, amended. In the input phase of a tick each of the four operations is called at
most once, only when its own key is pressed, in the order `rotateRight`, `rotateLeft`,
`shiftLeft`, `shiftRight`. For every board, every in-flight 4x4 piece (inside the board,
with `x - 1` and `x + 1` representable in `int`) and every combination of the four key
states: both rotations commit exactly when `D` and `A` are both pressed and
`canPlaceTetromino` accepts the right-rotated candidate (`rotateLeft` then turns the shape
back into the old one), and in every other case at most one of them commits; both shifts
commit exactly when the left and right keys are both pressed and `canPlaceTetromino`
accepts the anchor `(x - 1, y)` (`shiftRight` then moves the piece back to `x`), and in
every other case at most one of them commits. In all cases the shape after the phase is
the old shape or one of its two rotated candidates, and `x` after the phase is `x`,
`x - 1` or `x + 1`. -/
theorem at_most_one_commit_per_class (g : Game) (keys : Keys) (hb : g.board.Rect)
    (hin : g.board.inside g.shape g.x g.y) (hs : Is4x4 g.shape)
    (hx1 : isInt32 (g.x - 1)) (hx2 : isInt32 (g.x + 1)) :
    g.inputPhase keys = (g.inputStates keys).2.2.2.2 ∧
    ((g.commitsRotateRight keys = true ∧ g.commitsRotateLeft keys = true) ↔
      (keys.d = true ∧ keys.a = true ∧
        (g.board.clearTetromino g.shape g.x g.y).canPlaceTetromino
          (rotatedRight g.shape) g.x g.y = true)) ∧
    ((g.commitsShiftLeft keys = true ∧ g.commitsShiftRight keys = true) ↔
      (keys.left = true ∧ keys.right = true ∧
        (g.board.clearTetromino g.shape g.x g.y).canPlaceTetromino
          (g.inputStates keys).2.2.1.shape (g.x - 1) g.y = true)) ∧
    ((g.commitsRotateRight keys = true ∧ g.commitsRotateLeft keys = true) →
      (g.inputPhase keys).shape = g.shape) ∧
    ((g.commitsShiftLeft keys = true ∧ g.commitsShiftRight keys = true) →
      (g.inputPhase keys).x = g.x) ∧
    ((g.inputPhase keys).shape = g.shape ∨
      (g.inputPhase keys).shape = rotatedRight g.shape ∨
      (g.inputPhase keys).shape = rotatedLeft g.shape) ∧
    ((g.inputPhase keys).x = g.x ∨ (g.inputPhase keys).x = g.x - 1 ∨
      (g.inputPhase keys).x = g.x + 1) ∧
    isInt32 (g.inputPhase keys).x := by
  -- the states of the input phase
  have h0 := canPlaceTetromino_after_clear g.board hb g.shape g.x g.y hin
  have k1 := keyRotateRight_keeps keys.d
    { g with board := g.board.clearTetromino g.shape g.x g.y } h0
  have k2 := keyRotateLeft_keeps keys.a _ k1.2.2.2
  have k3 := keyShiftLeft_keeps keys.left _ k2.2.2.2
  have c1 := keyRotateRight_cases keys.d
    { g with board := g.board.clearTetromino g.shape g.x g.y }
  have c2 := keyRotateLeft_cases keys.a
    (Game.keyRotateRight keys.d { g with board := g.board.clearTetromino g.shape g.x g.y })
  have c3 := keyShiftLeft_cases keys.left
    (Game.keyRotateLeft keys.a
      (Game.keyRotateRight keys.d { g with board := g.board.clearTetromino g.shape g.x g.y }))
  have c4 := keyShiftRight_cases keys.right
    (Game.keyShiftLeft keys.left (Game.keyRotateLeft keys.a
      (Game.keyRotateRight keys.d { g with board := g.board.clearTetromino g.shape g.x g.y })))
  generalize hg0 : ({ g with board := g.board.clearTetromino g.shape g.x g.y } : Game) = g0
    at k1 k2 k3 c1 c2 c3 c4
  have e0b : g0.board = g.board.clearTetromino g.shape g.x g.y := by rw [← hg0]
  have e0s : g0.shape = g.shape := by rw [← hg0]
  have e0x : g0.x = g.x := by rw [← hg0]
  have e0y : g0.y = g.y := by rw [← hg0]
  generalize hg1 : Game.keyRotateRight keys.d g0 = g1 at k1 k2 k3 c1 c2 c3 c4
  generalize hg2 : Game.keyRotateLeft keys.a g1 = g2 at k2 k3 c2 c3 c4
  generalize hg3 : Game.keyShiftLeft keys.left g2 = g3 at k3 c3 c4
  generalize hg4 : Game.keyShiftRight keys.right g3 = g4 at c4
  have hphase : g.inputPhase keys = g4 := by
    unfold Game.inputPhase
    simp only
    rw [hg0, hg1, hg2, hg3, hg4]
  have hstates : g.inputStates keys = (g0, g1, g2, g3, g4) := by
    unfold Game.inputStates
    simp only
    rw [hg0, hg1, hg2, hg3, hg4]
  have hRR : g.commitsRotateRight keys =
      (keys.d && g0.board.canPlaceTetromino (rotatedRight g0.shape) g0.x g0.y) := by
    unfold Game.commitsRotateRight; simp only [hstates]
  have hRL : g.commitsRotateLeft keys =
      (keys.a && g1.board.canPlaceTetromino (rotatedLeft g1.shape) g1.x g1.y) := by
    unfold Game.commitsRotateLeft; simp only [hstates]
  have hSL : g.commitsShiftLeft keys =
      (keys.left && g2.board.canPlaceTetromino g2.shape (g2.x - 1) g2.y) := by
    unfold Game.commitsShiftLeft; simp only [hstates]
  have hSR : g.commitsShiftRight keys =
      (keys.right && g3.board.canPlaceTetromino g3.shape (g3.x + 1) g3.y) := by
    unfold Game.commitsShiftRight; simp only [hstates]
  -- what a committed operation leaves
  have g1_of : keys.d = true →
      g0.board.canPlaceTetromino (rotatedRight g0.shape) g0.x g0.y = true →
      g1.shape = rotatedRight g.shape := by
    intro hd hacc
    rw [← hg1, ← e0s]
    unfold Game.keyRotateRight Tetromino.rotateRight
    simp only [hd, if_true, hacc]
  have g2_of : keys.a = true →
      g1.board.canPlaceTetromino (rotatedLeft g1.shape) g1.x g1.y = true →
      g2.shape = rotatedLeft g1.shape := by
    intro ha hacc
    rw [← hg2]
    unfold Game.keyRotateLeft Tetromino.rotateLeft
    simp only [ha, if_true, hacc]
  have g3_of : keys.left = true →
      g2.board.canPlaceTetromino g2.shape (g2.x - 1) g2.y = true →
      g3.x = g2.x - 1 := by
    intro hl hacc
    rw [← hg3]
    unfold Game.keyShiftLeft Tetromino.shiftLeft
    simp only [hl, if_true, hacc]
  have g4_of : keys.right = true →
      g3.board.canPlaceTetromino g3.shape (g3.x + 1) g3.y = true →
      g4.x = g3.x + 1 := by
    intro hr hacc
    rw [← hg4]
    unfold Game.keyShiftRight Tetromino.shiftRight
    simp only [hr, if_true, hacc]
  have e2x : g2.x = g.x := by rw [c2.1, c1.1, e0x]
  have e2b : g2.board = g.board.clearTetromino g.shape g.x g.y := by rw [k2.1, k1.1, e0b]
  have e2y : g2.y = g.y := by rw [k2.2.2.1, k1.2.2.1, e0y]
  have e4s : g4.shape = g2.shape := by rw [c4.1, c3.1]
  have bothRot : (g.commitsRotateRight keys = true ∧ g.commitsRotateLeft keys = true) →
      g2.shape = g.shape := by
    rintro ⟨h1, h2⟩
    rw [hRR, Bool.and_eq_true] at h1
    rw [hRL, Bool.and_eq_true] at h2
    have s1 := g1_of h1.1 h1.2
    rw [g2_of h2.1 h2.2, s1]
    exact rotatedLeft_rotatedRight g.shape hs
  have bothShift : (g.commitsShiftLeft keys = true ∧ g.commitsShiftRight keys = true) →
      g4.x = g.x := by
    rintro ⟨h1, h2⟩
    rw [hSL, Bool.and_eq_true] at h1
    rw [hSR, Bool.and_eq_true] at h2
    rw [g4_of h2.1 h2.2, g3_of h1.1 h1.2, e2x]
    omega
  have hshape : g4.shape = g.shape ∨ g4.shape = rotatedRight g.shape ∨
      g4.shape = rotatedLeft g.shape := by
    rw [e4s]
    rcases c2.2 with e2 | ⟨-, e2⟩
    · rw [e2]
      rcases c1.2 with e1 | ⟨-, e1⟩
      · rw [e1, e0s]; exact Or.inl rfl
      · rw [e1, e0s]; exact Or.inr (Or.inl rfl)
    · rw [e2]
      rcases c1.2 with e1 | ⟨-, e1⟩
      · rw [e1, e0s]; exact Or.inr (Or.inr rfl)
      · rw [e1, e0s, rotatedLeft_rotatedRight g.shape hs]; exact Or.inl rfl
  have hxs : g4.x = g.x ∨ g4.x = g.x - 1 ∨ g4.x = g.x + 1 := by
    rcases c4.2 with e4 | ⟨-, e4⟩ <;> rcases c3.2 with e3 | ⟨-, e3⟩ <;>
      rw [e4, e3, e2x]
    · exact Or.inl rfl
    · exact Or.inr (Or.inl rfl)
    · exact Or.inr (Or.inr rfl)
    · left; omega
  refine ⟨by rw [hphase, hstates], ?_, ?_, ?_, ?_, ?_, ?_, ?_⟩
  · constructor
    · rintro ⟨h1, h2⟩
      rw [hRR, Bool.and_eq_true] at h1
      rw [hRL, Bool.and_eq_true] at h2
      refine ⟨h1.1, h2.1, ?_⟩
      rw [← e0b, ← e0s, ← e0x, ← e0y]
      exact h1.2
    · rintro ⟨hd, ha, hacc⟩
      rw [← e0b, ← e0s, ← e0x, ← e0y] at hacc
      have s1 := g1_of hd hacc
      constructor
      · rw [hRR, Bool.and_eq_true]; exact ⟨hd, hacc⟩
      · rw [hRL, Bool.and_eq_true]
        refine ⟨ha, ?_⟩
        rw [s1, rotatedLeft_rotatedRight g.shape hs, k1.1, c1.1, k1.2.2.1, e0b, e0x, e0y]
        exact h0
  · have hsh : (g.inputStates keys).2.2.1.shape = g2.shape := by rw [hstates]
    rw [hsh]
    constructor
    · rintro ⟨h1, h2⟩
      rw [hSL, Bool.and_eq_true] at h1
      rw [hSR, Bool.and_eq_true] at h2
      refine ⟨h1.1, h2.1, ?_⟩
      rw [← e2b, ← e2x, ← e2y]
      exact h1.2
    · rintro ⟨hl, hr, hacc⟩
      rw [← e2b, ← e2x, ← e2y] at hacc
      have x3 := g3_of hl hacc
      constructor
      · rw [hSL, Bool.and_eq_true]; exact ⟨hl, hacc⟩
      · rw [hSR, Bool.and_eq_true]
        refine ⟨hr, ?_⟩
        have e : g3.x + 1 = g2.x := by rw [x3]; omega
        rw [e, k3.1, k3.2.1, k3.2.2.1]
        exact k2.2.2.2
  · intro h; rw [hphase, e4s]; exact bothRot h
  · intro h; rw [hphase]; exact bothShift h
  · rw [hphase]; exact hshape
  · rw [hphase]; exact hxs
  · rw [hphase]
    unfold isInt32 at hx1 hx2 ⊢
    rcases hxs with e | e | e <;> rw [e] <;> omega

/-- C17 amended, at a concrete input: the line piece at the spawn anchor of the empty
10x20 board with the four keys pressed; both rotations commit, the right-rotated
candidate being accepted. -/
theorem at_most_one_commit_per_class_witness :
    (Game.commitsRotateRight { d := true, a := true, left := true, right := true }
          { board := Board.create 10 20, shape := lineShape, x := 3, y := 0 } = true ∧
        Game.commitsRotateLeft { d := true, a := true, left := true, right := true }
          { board := Board.create 10 20, shape := lineShape, x := 3, y := 0 } = true) ↔
      (true = true ∧ true = true ∧
        ((Board.create 10 20).clearTetromino lineShape 3 0).canPlaceTetromino
          (rotatedRight lineShape) 3 0 = true) :=
  (at_most_one_commit_per_class
    { board := Board.create 10 20, shape := lineShape, x := 3, y := 0 }
    { d := true, a := true, left := true, right := true }
    (by decide) (by decide) (by decide) (by decide) (by decide)).2.1

/-! ## Termination of `clearFullLines` -/

theorem clearFullLinesLoop_short (width : Int) (hw : 0 < width) (fuel : Nat) :
    ∀ (n : Nat) (g : List (List Int)), n ≤ g.length → fuel < n + fullCount (g.take n) →
      clearFullLinesLoop width fuel g ((n : Int) - 1) = none := by
  induction fuel with
  | zero =>
    intro n g _ hf
    cases n with
    | zero => simp [fullCount] at hf
    | succ k =>
      unfold clearFullLinesLoop
      rw [if_pos (by omega)]
  | succ fuel ih =>
    intro n g hn hf
    cases n with
    | zero => simp [fullCount] at hf
    | succ k =>
      have hk : k < g.length := by omega
      have hi : ((k + 1 : Nat) : Int) - 1 = (k : Int) := by omega
      rw [hi]
      unfold clearFullLinesLoop
      rw [if_pos (by omega)]
      simp only [Int.toNat_ofNat, List.getElem?_eq_getElem hk]
      have htake : g.take (k + 1) = g.take k ++ [g[k]] := by
        rw [List.take_succ, List.getElem?_eq_getElem hk]; rfl
      have hlen : (g.take k).length = k := by rw [List.length_take]; omega
      by_cases hfull : rowFull g[k] = true
      · rw [if_pos hfull]
        have hi2 : (k : Int) + 1 - 1 = ((k + 1 : Nat) : Int) - 1 := by omega
        rw [hi2]
        have hfc : fullCount (g.take (k + 1)) = fullCount (g.take k) + 1 := by
          rw [htake]; unfold fullCount; rw [List.countP_append]; simp [hfull]
        have he : g.eraseIdx k = g.take k ++ g.drop (k + 1) := List.eraseIdx_eq_take_drop_succ g k
        have ht2 : (List.replicate width.toNat (0 : Int) :: g.eraseIdx k).take (k + 1) =
            List.replicate width.toNat (0 : Int) :: g.take k := by
          rw [List.take_succ_cons, he, List.take_left' hlen]
        have hfc2 : fullCount (List.replicate width.toNat (0 : Int) :: g.take k) =
            fullCount (g.take k) := by
          simp [fullCount, List.countP_cons, rowFull_replicate_zero width hw]
        exact ih (k + 1) _ (by simp [List.length_eraseIdx, hk]; omega)
          (by rw [ht2, hfc2]; omega)
      · rw [if_neg hfull]
        have hfc : fullCount (g.take (k + 1)) = fullCount (g.take k) := by
          rw [htake]; unfold fullCount; rw [List.countP_append]; simp [hfull]
        have hi2 : (k : Int) - 1 = ((k : Nat) : Int) - 1 := rfl
        rw [hi2]
        exact ih k g (by omega) (by omega)

/-- C18. `clearFullLines` terminates on every well-formed board of positive width,
whatever its height and its number `k` of completely filled rows: the loop returns as soon
as its body may run `height + k` times, and with a smaller bound it does not return, so
the body runs exactly `height + k` times (the row inserted at the top is not full, hence
every removal takes one full row away). -/
theorem clearFullLines_terminates (b : Board) (hb : b.WellFormed) (hw : 0 < b.width) :
    (b.grid.length : Int) = b.height ∧
    rowFull (List.replicate b.width.toNat (0 : Int)) = false ∧
    (∀ fuel : Nat, b.grid.length + fullCount b.grid ≤ fuel →
      ∃ b1, b.clearFullLines fuel = some b1 ∧ fullCount b1.grid = 0) ∧
    (∀ fuel : Nat, fuel < b.grid.length + fullCount b.grid → b.clearFullLines fuel = none) := by
  refine ⟨hb.1.1, rowFull_replicate_zero _ hw, ?_, ?_⟩
  · intro fuel hf
    refine ⟨_, clearFullLines_spec b hb.1 hw fuel hf, ?_⟩
    unfold fullCount
    rw [List.countP_eq_zero]
    intro row hrow
    simp only [List.mem_append, List.mem_replicate, List.mem_filter] at hrow
    rcases hrow with ⟨-, rfl⟩ | ⟨-, h⟩
    · rw [rowFull_replicate_zero _ hw]; decide
    · simpa using h
  · intro fuel hf
    have h := clearFullLinesLoop_short b.width hw fuel b.grid.length b.grid (le_refl _)
      (by simpa using hf)
    rw [hb.1.1] at h
    unfold Board.clearFullLines
    rw [h]

/-- C18, at a concrete input: a 2x3 board with two completely filled rows; five
executions of the loop body are enough, four are not. -/
theorem clearFullLines_terminates_witness :
    (∃ b1, Board.clearFullLines 5 { width := 2, height := 3, grid := [[1, 1], [0, 1], [1, 1]] } =
        some b1 ∧ fullCount b1.grid = 0) ∧
    Board.clearFullLines 4 { width := 2, height := 3, grid := [[1, 1], [0, 1], [1, 1]] } = none :=
  have h := clearFullLines_terminates
    { width := 2, height := 3, grid := [[1, 1], [0, 1], [1, 1]] } (by decide) (by decide)
  ⟨h.2.2.1 5 (by decide), h.2.2.2 4 (by decide)⟩

/-! ## The two rotations -/

theorem filledCount_cells (a b c d e f g h i j k l m n o p : Int) :
    filledCount [[a, b, c, d], [e, f, g, h], [i, j, k, l], [m, n, o, p]] =
      (if a = 1 then 1 else 0) + (if b = 1 then 1 else 0) + (if c = 1 then 1 else 0) +
      (if d = 1 then 1 else 0) + (if e = 1 then 1 else 0) + (if f = 1 then 1 else 0) +
      (if g = 1 then 1 else 0) + (if h = 1 then 1 else 0) + (if i = 1 then 1 else 0) +
      (if j = 1 then 1 else 0) + (if k = 1 then 1 else 0) + (if l = 1 then 1 else 0) +
      (if m = 1 then 1 else 0) + (if n = 1 then 1 else 0) + (if o = 1 then 1 else 0) +
      (if p = 1 then 1 else 0) := by
  simp only [filledCount, List.map_cons, List.map_nil, List.sum_cons, List.sum_nil,
    List.countP_cons, List.countP_nil, beq_iff_eq]
  omega

/-- C20. The two rotations are mutually inverse and preserve the piece: for every 4x4
shape `s`, the candidate of `rotateLeft` computed from the candidate of `rotateRight` of
`s` is `s`, and the candidate of `rotateRight` computed from the candidate of
`rotateLeft` of `s` is `s`; both candidates are 4x4 shapes with as many filled cells as
`s`, and each rotation is a bijection on the 4x4 shapes (every 4x4 shape is the rotated
candidate of exactly one 4x4 shape). -/
theorem rotations_inverse (s : List (List Int)) (hs : Is4x4 s) :
    rotatedLeft (rotatedRight s) = s ∧
    rotatedRight (rotatedLeft s) = s ∧
    Is4x4 (rotatedRight s) ∧ Is4x4 (rotatedLeft s) ∧
    filledCount (rotatedRight s) = filledCount s ∧
    filledCount (rotatedLeft s) = filledCount s ∧
    (∃! t, Is4x4 t ∧ rotatedRight t = s) ∧
    (∃! t, Is4x4 t ∧ rotatedLeft t = s) := by
  have inv : ∀ t : List (List Int), Is4x4 t →
      rotatedLeft (rotatedRight t) = t ∧ rotatedRight (rotatedLeft t) = t := by
    intro t ht
    obtain ⟨a, b, c, d, e, f, g, h, i, j, k, l, m, n, o, p, rfl⟩ := ht.exists_cells
    constructor
    · rw [rotatedRight_cells, rotatedLeft_cells]
    · rw [rotatedLeft_cells, rotatedRight_cells]
  have hR := (rotatedRight_spec s hs).1
  have hL := (rotatedLeft_spec s hs).1
  refine ⟨(inv s hs).1, (inv s hs).2, hR, hL, ?_, ?_, ?_, ?_⟩
  · obtain ⟨a, b, c, d, e, f, g, h, i, j, k, l, m, n, o, p, rfl⟩ := hs.exists_cells
    rw [rotatedRight_cells, filledCount_cells, filledCount_cells]
    omega
  · obtain ⟨a, b, c, d, e, f, g, h, i, j, k, l, m, n, o, p, rfl⟩ := hs.exists_cells
    rw [rotatedLeft_cells, filledCount_cells, filledCount_cells]
    omega
  · refine ⟨rotatedLeft s, ⟨hL, (inv s hs).2⟩, ?_⟩
    rintro t ⟨ht, rfl⟩
    exact ((inv t ht).1).symm
  · refine ⟨rotatedRight s, ⟨hR, (inv s hs).1⟩, ?_⟩
    rintro t ⟨ht, rfl⟩
    exact ((inv t ht).2).symm

/-- C20, at a concrete input: the T-shape of the catalog. -/
theorem rotations_inverse_witness :
    rotatedLeft (rotatedRight teeShape) = teeShape ∧
    rotatedRight (rotatedLeft teeShape) = teeShape ∧
    filledCount (rotatedRight teeShape) = filledCount teeShape :=
  have h := rotations_inverse teeShape (by decide)
  ⟨h.1, h.2.1, h.2.2.2.2.1⟩

/-! ## Every piece locks -/

theorem cellAt_cast (s : List (List Int)) (i j : Nat) :
    cellAt s (i : Int) (j : Int) = (s.getD i []).getD j 0 := by
  unfold cellAt
  rw [if_pos ⟨by omega, by omega⟩]
  simp only [Int.toNat_ofNat]

theorem shapeFilled_lt {s : List (List Int)} (hs : Is4x4 s) {i j : Nat}
    (h : shapeFilled s i j) : i < 4 ∧ j < 4 := by
  unfold shapeFilled at h
  have hi : i < s.length := by
    by_contra hi
    rw [List.getD_eq_default s [] (by omega)] at h
    simp at h
  have hrow : (s.getD i []).length = 4 := by
    rw [List.getD_eq_getElem _ _ hi]
    exact hs.2 _ (List.getElem_mem hi)
  have hj : j < (s.getD i []).length := by
    by_contra hj
    rw [List.getD_eq_default (s.getD i []) 0 (by omega)] at h
    exact absurd h (by decide)
  rw [hs.1] at hi
  exact ⟨hi, by omega⟩

theorem pieceShape_rotatedRight {s : List (List Int)} (h : pieceShape s) :
    pieceShape (rotatedRight s) := by
  obtain ⟨hs, i, j, hf⟩ := h
  obtain ⟨h4, hc⟩ := rotatedRight_spec s hs
  obtain ⟨hi, hj⟩ := shapeFilled_lt hs hf
  refine ⟨h4, j, 3 - i, ?_⟩
  have e := hc i j hi hj
  have e3 : (3 : Int) - (i : Int) = ((3 - i : Nat) : Int) := by omega
  rw [e3, cellAt_cast, cellAt_cast] at e
  unfold shapeFilled at hf ⊢
  rw [e]; exact hf

theorem pieceShape_rotatedLeft {s : List (List Int)} (h : pieceShape s) :
    pieceShape (rotatedLeft s) := by
  obtain ⟨hs, i, j, hf⟩ := h
  obtain ⟨h4, hc⟩ := rotatedLeft_spec s hs
  obtain ⟨hi, hj⟩ := shapeFilled_lt hs hf
  refine ⟨h4, 3 - j, i, ?_⟩
  have e := hc i j hi hj
  have e3 : (3 : Int) - (j : Int) = ((3 - j : Nat) : Int) := by omega
  rw [e3, cellAt_cast, cellAt_cast] at e
  unfold shapeFilled at hf ⊢
  rw [e]; exact hf

theorem inputPhase_pieceShape (keys : Keys) (g : Game) (h : pieceShape g.shape) :
    pieceShape (g.inputPhase keys).shape := by
  have k1 := keyRotateRight_cases keys.d
    { g with board := g.board.clearTetromino g.shape g.x g.y }
  have k2 := keyRotateLeft_cases keys.a
    (Game.keyRotateRight keys.d { g with board := g.board.clearTetromino g.shape g.x g.y })
  have k3 := keyShiftLeft_cases keys.left
    (Game.keyRotateLeft keys.a
      (Game.keyRotateRight keys.d { g with board := g.board.clearTetromino g.shape g.x g.y }))
  have k4 := keyShiftRight_cases keys.right
    (Game.keyShiftLeft keys.left (Game.keyRotateLeft keys.a
      (Game.keyRotateRight keys.d { g with board := g.board.clearTetromino g.shape g.x g.y })))
  have h1 : pieceShape (Game.keyRotateRight keys.d
      { g with board := g.board.clearTetromino g.shape g.x g.y }).shape := by
    rcases k1.2 with e | ⟨-, e⟩
    · rw [e]; exact h
    · rw [e]; exact pieceShape_rotatedRight h
  have h2 : pieceShape (Game.keyRotateLeft keys.a (Game.keyRotateRight keys.d
      { g with board := g.board.clearTetromino g.shape g.x g.y })).shape := by
    rcases k2.2 with e | ⟨-, e⟩
    · rw [e]; exact h1
    · rw [e]; exact pieceShape_rotatedLeft h1
  unfold Game.inputPhase
  simp only
  rw [k4.1, k3.1]
  exact h2

theorem runTicks_progress (fuel : Nat) (w h : Int) (keys : List Keys) :
    ∀ g : Game, g.board.Rect → g.board.width = w → g.board.height = h →
      g.board.inside g.shape g.x g.y → pieceShape g.shape →
      2 * g.board.grid.length ≤ fuel →
      (∃ g1, runTicks fuel keys g = some (true, g1) ∧ g1.board.Rect ∧
        g1.board.width = w ∧ g1.board.height = h ∧ g1.board.inside g1.shape g1.x g1.y ∧
        pieceShape g1.shape ∧ g1.y = g.y + (keys.length : Int)) ∨
      (∃ (n : Nat) (g1 : Game), 1 ≤ n ∧ n ≤ keys.length ∧
        runTicks fuel (keys.take n) g = some (false, g1) ∧ g1.y = g.y + (n : Int) - 1 ∧
        ∀ m : Nat, m < n →
          ∃ gm, runTicks fuel (keys.take m) g = some (true, gm) ∧ gm.y = g.y + (m : Int)) := by
  induction keys with
  | nil =>
    intro g hb hw hh hin hs _
    left
    exact ⟨g, rfl, hb, hw, hh, hin, hs, by simp⟩
  | cons k ks ih =>
    intro g hb hw hh hin hs hf
    have hwpos : 0 < g.board.width := by
      obtain ⟨-, i, j, hfill⟩ := hs
      have := hin i j hfill
      omega
    obtain ⟨⟨flag, g2⟩, ht⟩ := tick_some fuel k g hb hin hwpos hf
    obtain ⟨t1, t2, t3, t4, t5, t6, -⟩ := tick_spec fuel k g hb hin hwpos flag g2 ht
    have hs2 : pieceShape g2.shape := by rw [t6]; exact inputPhase_pieceShape k g hs
    cases flag with
    | false =>
      right
      refine ⟨1, g2, le_refl _, by simp, ?_, ?_, ?_⟩
      · show runTicks fuel (k :: List.take 0 ks) g = some (false, g2)
        rw [List.take_zero]
        unfold runTicks
        rw [ht]
      · simp only [Bool.false_eq_true, if_false] at t5
        rw [t5]; simp
      · intro m hm
        have hm0 : m = 0 := by omega
        subst hm0
        exact ⟨g, rfl, by simp⟩
    | true =>
      simp only [if_true] at t5
      have hlen2 : g2.board.grid.length = g.board.grid.length := by
        have := t1.1; have := hb.1; omega
      rcases ih g2 t1 (by omega) (by omega) t4 hs2 (by omega) with
        ⟨g1, r1, r2, r3, r4, r5, r6, r7⟩ | ⟨n, g1, n1, n2, r1, r2, r3⟩
      · left
        refine ⟨g1, ?_, r2, r3, r4, r5, r6, ?_⟩
        · unfold runTicks; rw [ht]; exact r1
        · rw [r7, t5]; simp only [List.length_cons]; push_cast; omega
      · right
        refine ⟨n + 1, g1, by omega, by simp only [List.length_cons]; omega, ?_, ?_, ?_⟩
        · rw [List.take_succ_cons]
          unfold runTicks; rw [ht]; exact r1
        · rw [r2, t5]; push_cast; omega
        · intro m hm
          cases m with
          | zero => exact ⟨g, rfl, by simp⟩
          | succ m =>
            obtain ⟨gm, q1, q2⟩ := r3 m (by omega)
            refine ⟨gm, ?_, ?_⟩
            · rw [List.take_succ_cons]
              unfold runTicks; rw [ht]; exact q1
            · rw [q2, t5]; push_cast; omega

/-- C19. Every piece locks: on a well-formed board of height `h`, for a 4x4 shape with at
least one filled cell that passes the placement test at `y = 0`, and for every sequence of
key states, the inner loop of `main` reaches the locking tick (flag false) after `n` ticks
with `1 <= n <= h`; before that the piece keeps falling and `y` is `m` after `m` ticks
(each falling tick adds exactly 1 to `y`, `y` never decreases), and the locking tick
leaves `y = n - 1`. (`fuel` bounds the loop of `clearFullLines`; `2 * h` suffices.) -/
theorem piece_locks (g : Game) (hb : g.board.WellFormed) (hs : pieceShape g.shape)
    (hy : g.y = 0) (hcan : g.board.canPlaceTetromino g.shape g.x g.y = true)
    (fuel : Nat) (hfuel : 2 * g.board.grid.length ≤ fuel)
    (keys : List Keys) (hk : g.board.grid.length ≤ keys.length) :
    (g.board.grid.length : Int) = g.board.height ∧
    ∃ (n : Nat) (g1 : Game), 1 ≤ n ∧ n ≤ g.board.grid.length ∧
      runTicks fuel (keys.take n) g = some (false, g1) ∧ g1.y = (n : Int) - 1 ∧
      ∀ m : Nat, m < n →
        ∃ gm, runTicks fuel (keys.take m) g = some (true, gm) ∧ gm.y = (m : Int) := by
  refine ⟨hb.1.1, ?_⟩
  have hin := canPlaceTetromino_inside hcan
  have hlen : (keys.take g.board.grid.length).length = g.board.grid.length := by
    rw [List.length_take]; omega
  rcases runTicks_progress fuel g.board.width g.board.height (keys.take g.board.grid.length)
      g hb.1 rfl rfl hin hs hfuel with
    ⟨g1, -, -, -, r4, r5, r6, r7⟩ | ⟨n, g1, n1, n2, r1, r2, r3⟩
  · exfalso
    obtain ⟨-, i, j, hfill⟩ := r6
    have := r5 i j hfill
    have := hb.1.1
    rw [hlen] at r7
    omega
  · rw [hlen] at n2
    have htt : ∀ m : Nat, m ≤ g.board.grid.length →
        (keys.take g.board.grid.length).take m = keys.take m := by
      intro m hm
      rw [List.take_take, Nat.min_eq_left hm]
    refine ⟨n, g1, n1, n2, ?_, by rw [r2, hy]; omega, ?_⟩
    · rw [← htt n n2]; exact r1
    · intro m hm
      obtain ⟨gm, q1, q2⟩ := r3 m hm
      exact ⟨gm, by rw [← htt m (by omega)]; exact q1, by rw [q2, hy]; omega⟩

/-- C19, at a concrete input: the line piece spawned on the empty 10x20 board, with the
left key held down for 20 ticks. -/
theorem piece_locks_witness :
    ∃ (n : Nat) (g1 : Game), 1 ≤ n ∧ n ≤ 20 ∧
      runTicks 40
          ((List.replicate 20 { d := false, a := false, left := true, right := false }).take n)
          { board := Board.create 10 20, shape := lineShape, x := 3, y := 0 } =
        some (false, g1) ∧ g1.y = (n : Int) - 1 :=
  have h := piece_locks { board := Board.create 10 20, shape := lineShape, x := 3, y := 0 }
    (by decide) ⟨by decide, 0, 0, by decide⟩ rfl (by decide) 40 (by decide)
    (List.replicate 20 { d := false, a := false, left := true, right := false }) (by decide)
  let ⟨n, g1, h1, h2, h3, h4, _⟩ := h.2
  ⟨n, g1, h1, h2, h3, h4⟩

end ConsoleTetris
